import Mathlib

/-!
# The Go type generation jenny of grafana-app-sdk

A shallow embedding of `codegen/jennies/gotypes.go`: the `GoTypes` jenny
(`Generate`, `generateFiles`, `generateFilesAtDepth`), the single-node emitter
`GoTypesFromCUE` with its naming closure `nameFunc`, and `exportField`.

Go strings are byte sequences, Go `int` values are integers, a function that
returns `(value, error)` returns an `Except`, and every call of the type
emission backend is recorded in the order in which it is made.

The last part embeds `parsePluginJSONValue` of
`cmd/grafana-app-sdk/project_local.go`, with a Go call that either returns or
panics.
-/

set_option autoImplicit false

namespace Jennies

/-! ## Go strings and the standard library functions the jenny calls -/

/-- A Go string: a sequence of bytes, each element a value below 256. -/
abbrev GoString := List Nat

/-- The replacement rune `utf8.RuneError`, U+FFFD. -/
def RuneError : Nat := 0xFFFD

/-- The UTF-8 encoding of a rune (`utf8.AppendRune`): surrogates and values
above U+10FFFF are written as `RuneError`. -/
def encodeRune (r : Nat) : GoString :=
  if r < 0x80 then [r]
  else if r < 0x800 then [0xC0 + r / 64, 0x80 + r % 64]
  else if (0xD800 ≤ r ∧ r ≤ 0xDFFF) ∨ 0x10FFFF < r then [0xEF, 0xBF, 0xBD]
  else if r < 0x10000 then [0xE0 + r / 4096, 0x80 + r / 64 % 64, 0x80 + r % 64]
  else [0xF0 + r / 262144, 0x80 + r / 4096 % 64, 0x80 + r / 64 % 64, 0x80 + r % 64]

/-- The bytes of a string literal, as the Go compiler stores it (UTF-8). -/
def utf8 (s : String) : GoString := s.data.flatMap (fun c => encodeRune c.toNat)

/-- The first rune of a string and its width in bytes
(`utf8.DecodeRuneInString`): an invalid or incomplete encoding yields
`(RuneError, 1)`, the empty string `(RuneError, 0)`. -/
def decodeRune : GoString → Nat × Nat
  | [] => (RuneError, 0)
  | s0 :: rest =>
    if s0 < 0x80 then (s0, 1)
    else if s0 < 0xC2 ∨ 0xF4 < s0 then (RuneError, 1)
    else
      let sz := if s0 < 0xE0 then 2 else if s0 < 0xF0 then 3 else 4
      let lo := if s0 = 0xE0 then 0xA0 else if s0 = 0xF0 then 0x90 else 0x80
      let hi := if s0 = 0xED then 0x9F else if s0 = 0xF4 then 0x8F else 0xBF
      if rest.length + 1 < sz then (RuneError, 1)
      else
        match rest with
        | [] => (RuneError, 1)
        | s1 :: rest1 =>
          if s1 < lo ∨ hi < s1 then (RuneError, 1)
          else if sz ≤ 2 then (s0 % 32 * 64 + s1 % 64, 2)
          else
            match rest1 with
            | [] => (RuneError, 1)
            | s2 :: rest2 =>
              if s2 < 0x80 ∨ 0xBF < s2 then (RuneError, 1)
              else if sz ≤ 3 then (s0 % 16 * 4096 + s1 % 64 * 64 + s2 % 64, 3)
              else
                match rest2 with
                | [] => (RuneError, 1)
                | s3 :: _ =>
                  if s3 < 0x80 ∨ 0xBF < s3 then (RuneError, 1)
                  else (s0 % 8 * 262144 + s1 % 64 * 4096 + s2 % 64 * 64 + s3 % 64, 4)

/-- The rune loop of `strings.Map` over the bytes still to be read: `skip`
counts the bytes left of the rune that was read last, which are passed over. -/
def mapRunes (mapping : Nat → Nat) : GoString → Nat → GoString
  | [], _ => []
  | c :: rest, 0 =>
    encodeRune (mapping (decodeRune (c :: rest)).1) ++
      mapRunes mapping rest ((decodeRune (c :: rest)).2 - 1)
  | _ :: rest, skip + 1 => mapRunes mapping rest skip

/-- Go `strings.Map` for a mapping that drops no rune: every rune of the input
(an invalid byte reads as `RuneError`) is replaced by the encoding of its
image. -/
def stringsMap (mapping : Nat → Nat) (s : GoString) : GoString :=
  mapRunes mapping s 0

/-- Go `strings.ToUpper`: an ASCII-only string is mapped byte by byte, any
other string goes through `strings.Map(unicode.ToUpper, s)`; the table
`unicode.ToUpper` is the parameter `upperRune`. -/
def stringsToUpper (upperRune : Nat → Nat) (s : GoString) : GoString :=
  if s.all (fun c => decide (c < 0x80)) then
    s.map (fun c => if 97 ≤ c ∧ c ≤ 122 then c - 32 else c)
  else stringsMap upperRune s

/-- Go `strings.ToLower`, with the table `unicode.ToLower` as `lowerRune`. -/
def stringsToLower (lowerRune : Nat → Nat) (s : GoString) : GoString :=
  if s.all (fun c => decide (c < 0x80)) then
    s.map (fun c => if 65 ≤ c ∧ c ≤ 90 then c + 32 else c)
  else stringsMap lowerRune s

/-- Go `strings.Join`. -/
def stringsJoin (elems : List GoString) (sep : GoString) : GoString :=
  sep.intercalate elems

/-- Go `strings.Trim` for a cutset of ASCII bytes: the bytes of the cutset are
removed from the right end and then from the left end. -/
def stringsTrim (s cutset : GoString) : GoString :=
  ((s.reverse.dropWhile (fun c => decide (c ∈ cutset))).reverse).dropWhile
    (fun c => decide (c ∈ cutset))

/-! ## exportField -/

/-- Source `exportField`: `strings.ToUpper(field[:1]) + field[1:]` for a
non-empty field, where `field[:1]` is the first byte of the string. -/
def exportField (upperRune : Nat → Nat) (field : GoString) : GoString :=
  if field.length > 0 then
    stringsToUpper upperRune (field.take 1) ++ field.drop 1
  else stringsToUpper upperRune field

/-! ## path.Join and fmt.Sprintf -/

/-- The components of a path between its slashes. -/
def splitSlash : GoString → List GoString
  | [] => [[]]
  | c :: rest =>
    if c = 47 then [] :: splitSlash rest
    else
      match splitSlash rest with
      | [] => [[c]]
      | h :: t => (c :: h) :: t

/-- One component of `path.Clean`, on the stack of the components kept so far
(last component first): an empty component and `.` are skipped, `..` removes
the component before it when there is one that is not `..`, is dropped at the
root of a rooted path and is kept otherwise. -/
def cleanStep (rooted : Bool) (out : List GoString) (elem : GoString) : List GoString :=
  if elem = [] ∨ elem = [46] then out
  else if elem = [46, 46] then
    match out with
    | [] => if rooted then out else elem :: out
    | last :: before => if last = [46, 46] then elem :: out else before
  else elem :: out

/-- Go `path.Clean`, by the four rules of its documentation. -/
def pathClean (path : GoString) : GoString :=
  if path = [] then [46]
  else
    let rooted := decide (path.head? = some 47)
    let out := ((splitSlash path).foldl (cleanStep rooted) []).reverse
    let body := (if rooted then [47] else []) ++ stringsJoin out [47]
    if body = [] then [46] else body

/-- The buffer loop of `path.Join`. -/
def joinLoop : List GoString → GoString → GoString
  | [], buf => buf
  | e :: es, buf =>
    if buf.length > 0 ∨ e ≠ [] then
      joinLoop es ((if buf.length > 0 then buf ++ [47] else buf) ++ e)
    else joinLoop es buf

/-- Go `path.Join`. -/
def pathJoin (elems : List GoString) : GoString :=
  if (elems.map List.length).sum = 0 then [] else pathClean (joinLoop elems [])

/-- What `fmt` appends for operands left over at the end of the format. -/
def extraOperands (rest : List GoString) : GoString :=
  utf8 "%!(EXTRA " ++ stringsJoin (rest.map (fun a => utf8 "string=" ++ a)) (utf8 ", ") ++ utf8 ")"

/-- Go `fmt.Sprintf` on string operands (`doPrintf`): plain bytes are copied,
`%%` writes a percent sign, and `%s` with an operand left writes that operand.
Every other verb form is left to `fmtOther`, the rest of the `fmt` package,
which receives the unread format, the operands and the operand index. -/
def doPrintf (fmtOther : GoString → List GoString → Nat → GoString) (a : List GoString) :
    GoString → Nat → GoString
  | [], argNum => if argNum < a.length then extraOperands (a.drop argNum) else []
  | c :: rest, argNum =>
    if c ≠ 37 then c :: doPrintf fmtOther a rest argNum
    else
      match rest with
      | [] => fmtOther [c] a argNum
      | verb :: rest2 =>
        if verb = 37 then 37 :: doPrintf fmtOther a rest2 argNum
        else if verb = 115 ∧ argNum < a.length then
          a.getD argNum [] ++ doPrintf fmtOther a rest2 (argNum + 1)
        else fmtOther (c :: verb :: rest2) a argNum

/-- Go `fmt.Sprintf(format, a...)` for string operands. -/
def Sprintf (fmtOther : GoString → List GoString → Nat → GoString) (format : GoString)
    (a : List GoString) : GoString :=
  doPrintf fmtOther a format 0

/-- The decimal digits of a length, as `%d` prints it. -/
def decimal (n : Nat) : GoString := (Nat.toDigits 10 n).map Char.toNat

/-- Go `int` arithmetic: the result wrapped to 64 bits, two's complement. -/
def wrapInt (x : Int) : Int := (x + 2 ^ 63) % 2 ^ 64 - 2 ^ 63

/-! ## Data model -/

/-- A Go `error`, known by its message. -/
structure GoError where
  msg : GoString
deriving DecidableEq, Repr

/-- A `cue.Selector`, known by its rendering `Selector.String()`. -/
structure Selector where
  String : GoString
deriving DecidableEq, Repr

/-- A `cue.Path`: its `Selectors()`. -/
abbrev Path := List Selector

/-- A `cue.Value` as the jenny sees it: its `Path()` and the outcome of
`Fields()`, which is either the child fields in iteration order or an error. -/
inductive Value where
  | struct (path : Path) (fields : List Value)
  | broken (path : Path) (err : GoError)

/-- The result of `v.Path().Selectors()`. -/
def Value.Path : Value → Path
  | .struct path _ => path
  | .broken path _ => path

/-- The result of `v.Fields()`. -/
def Value.Fields : Value → Except GoError (List Value)
  | .struct _ fields => .ok fields
  | .broken _ err => .error err

/-- A `codegen.KindVersion`, with the fields the jenny reads:
`Codegen.Go.Enabled` and `Codegen.Go.Config.AllowMarshalEmptyDisjunctions`. -/
structure KindVersion where
  Version : GoString
  Schema : Value
  GoEnabled : Bool
  AllowMarshalEmptyDisjunctions : Bool

/-- The part of `codegen.KindProperties` the jenny reads. -/
structure KindProperties where
  Current : GoString
  MachineName : GoString

/-- A `codegen.Kind`: the results of `Name()`, `Properties()` and `Versions()`. -/
structure Kind where
  Name : GoString
  Properties : KindProperties
  Versions : List KindVersion

/-- Modelled from the spec: the interface method `Kind.Version(id)`, whose
implementations are not part of the jenny. It returns the Kind Version with
that version string, and nil when the kind has none. -/
def Kind.Version (kind : Kind) (version : GoString) : Option KindVersion :=
  kind.Versions.find? (fun ver => decide (ver.Version = version))

/-- The jenny configuration `GoTypes`. -/
structure GoTypes where
  GenerateOnlyCurrent : Bool
  Depth : Int
  NamingDepth : Int
  AddKubernetesCodegen : Bool
  GroupByKind : Bool
  AnyAsInterface : Bool

/-- Source `CUEGoConfig`. -/
structure CUEGoConfig where
  PackageName : GoString
  Name : GoString
  AddKubernetesOpenAPIGenComment : Bool
  AnyAsInterface : Bool
  AllowMarshalEmptyDisjunctions : Bool
  NamePrefix : GoString

/-- A `codejen.File`; `From` holds the names of the jennies it comes from. -/
structure File where
  RelativePath : GoString
  Data : GoString
  From : List GoString
deriving DecidableEq, Repr

/-- A schema transformation of the cog pipeline. -/
inductive SchemaTransformation where
  | PrefixObjectsNames (namePrefix : GoString)
  | AppendCommentToObjects (comment : GoString)
deriving DecidableEq, Repr

/-- What the closure `nameFunc` of `GoTypesFromCUE` captures. -/
structure NameFuncEnv where
  v : Value
  maxNamingDepth : Int

/-- One run of the cog pipeline `cog.TypesFromSchema()...Run(ctx)`: the
arguments of `CUEValue`, the `cog.NameFunc` option when given, the schema
transformations in the order they are added, and the `cog.GoConfig`. -/
structure CogRequest where
  PackageName : GoString
  Value : Value
  ForceEnvelope : GoString
  NameFunc : Option NameFuncEnv
  SchemaTransformations : List SchemaTransformation
  AnyAsInterface : Bool
  AllowMarshalEmptyDisjunctions : Bool

/-- The collaborators of the jenny that are not defined in `gotypes.go`: the
helpers `SelEq`, `TrimPathPrefix`, `ToPackageName` and `GetGeneratedPath` of
the package, `cue.Path.String`, the cog backend (`Run`), the case tables of
package `unicode` and the verbs of `fmt` other than `%s` and `%%`. -/
structure Collab where
  SelEq : Selector → Selector → Bool
  TrimPathPrefix : Path → Path → Path
  ToPackageName : GoString → GoString
  GetGeneratedPath : Bool → Kind → GoString → GoString
  pathString : Path → GoString
  Run : CogRequest → Except GoError (List File)
  upperRune : Nat → Nat
  lowerRune : Nat → Nat
  fmtOther : GoString → List GoString → Nat → GoString

/-- The outcome of a function of the jenny together with the backend runs it
made, in order. -/
abbrev Traced (α : Type) := Except GoError α × List CogRequest

/-! ## The naming closure and the single-node emitter -/

/-- The counting loop of `nameFunc`, from loop variable `i` on: it stops when
`i` reaches the end of either path, when `maxNamingDepth > 0` and
`i >= maxNamingDepth`, or when the selectors at `i` are not `SelEq`. -/
def nameFuncLoop (c : Collab) (definitionPath vPath : Path) (maxNamingDepth : Int) (i : Nat) : Nat :=
  if h : i < definitionPath.length ∧ i < vPath.length then
    if maxNamingDepth > 0 ∧ (i : Int) ≥ maxNamingDepth then i
    else if !c.SelEq (definitionPath.get ⟨i, h.1⟩) (vPath.get ⟨i, h.2⟩) then i
    else nameFuncLoop c definitionPath vPath maxNamingDepth (i + 1)
  else i
termination_by definitionPath.length - i

/-- The closure `nameFunc` built in `GoTypesFromCUE` for the value `v` and
`maxNamingDepth`, applied to a definition path. -/
def nameFunc (c : Collab) (v : Value) (maxNamingDepth : Int) (definitionPath : Path) : GoString :=
  let i := nameFuncLoop c definitionPath v.Path maxNamingDepth 0
  let definitionPath := if i > 0 then definitionPath.drop i else definitionPath
  stringsTrim (c.pathString definitionPath) (utf8 "?#")

/-- The error `fmt.Errorf("expected one file to be generated, got %d", n)`. -/
def errExpectedOneFile (n : Nat) : GoError :=
  ⟨utf8 "expected one file to be generated, got " ++ decimal n⟩

/-- The comment both pipelines append to objects for kubernetes codegen. -/
def openAPIGenComment : GoString := utf8 "+k8s:openapi-gen=true"

/-- The pipeline `GoTypesFromCUE` builds before it runs it. -/
def cueRequest (v : Value) (cfg : CUEGoConfig) (maxNamingDepth : Int) : CogRequest :=
  { PackageName := cfg.PackageName
    Value := v
    ForceEnvelope := cfg.Name
    NameFunc := some ⟨v, maxNamingDepth⟩
    SchemaTransformations :=
      SchemaTransformation.PrefixObjectsNames cfg.NamePrefix ::
        (if cfg.AddKubernetesOpenAPIGenComment then
          [SchemaTransformation.AppendCommentToObjects openAPIGenComment] else [])
    AnyAsInterface := cfg.AnyAsInterface
    AllowMarshalEmptyDisjunctions := cfg.AllowMarshalEmptyDisjunctions }

/-- Source `GoTypesFromCUE`: one run of the backend; its error is returned as
it is, a number of files other than one is an error, and otherwise the bytes
of the one file are returned. -/
def GoTypesFromCUE (c : Collab) (v : Value) (cfg : CUEGoConfig) (maxNamingDepth : Int) :
    Traced GoString :=
  let req := cueRequest v cfg maxNamingDepth
  match c.Run req with
  | .error err => (.error err, [req])
  | .ok files =>
    if h : files.length ≠ 1 then (.error (errExpectedOneFile files.length), [req])
    else (.ok (files.get ⟨0, by omega⟩).Data, [req])

/-! ## The jenny -/

/-- Source `JennyName`. -/
def JennyName : GoString := utf8 "GoTypes"

/-- The field name of a node: the rendering of every selector of
`TrimPathPrefix(v.Path(), kv.Schema.Path())`. -/
def fieldNameOf (c : Collab) (v : Value) (kv : KindVersion) : List GoString :=
  (c.TrimPathPrefix v.Path kv.Schema.Path).map Selector.String

/-- The configuration `generateFilesAtDepth` hands to `GoTypesFromCUE`. -/
def depthConfig (c : Collab) (g : GoTypes) (v : Value) (kv : KindVersion)
    (packageName namePrefix : GoString) : CUEGoConfig :=
  { PackageName := packageName
    Name := exportField c.upperRune (stringsJoin (fieldNameOf c v kv) [])
    NamePrefix := namePrefix
    AddKubernetesOpenAPIGenComment :=
      g.AddKubernetesCodegen && !(decide (fieldNameOf c v kv = [utf8 "metadata"]))
    AnyAsInterface := g.AnyAsInterface
    AllowMarshalEmptyDisjunctions := kv.AllowMarshalEmptyDisjunctions }

/-- The third argument `len(v.Path().Selectors())-(g.Depth-g.NamingDepth)` of
the call of `GoTypesFromCUE`. -/
def depthNaming (g : GoTypes) (v : Value) : Int :=
  wrapInt ((v.Path.length : Int) - wrapInt (g.Depth - g.NamingDepth))

/-- The relative path of a file of depth-targeted mode. -/
def depthRelativePath (c : Collab) (machineName pathPrefix : GoString) (fieldName : List GoString) :
    GoString :=
  Sprintf c.fmtOther (pathJoin [pathPrefix, utf8 "%s_%s_gen.go"])
    [stringsToLower c.lowerRune machineName, stringsJoin fieldName (utf8 "_")]

/-- The branch `currDepth == g.Depth` of `generateFilesAtDepth`: the node is
handed to `GoTypesFromCUE` and becomes one file. -/
def emitAtDepth (c : Collab) (g : GoTypes) (kv : KindVersion)
    (machineName packageName pathPrefix namePrefix : GoString) (v : Value) : Traced (List File) :=
  match GoTypesFromCUE c v (depthConfig c g v kv packageName namePrefix) (depthNaming g v) with
  | (.error err, calls) => (.error err, calls)
  | (.ok goBytes, calls) =>
    (.ok [{ Data := goBytes
            RelativePath := depthRelativePath c machineName pathPrefix (fieldNameOf c v kv)
            From := [JennyName] }], calls)

mutual
/-- Source `generateFilesAtDepth`. -/
def generateFilesAtDepth (c : Collab) (g : GoTypes) (kv : KindVersion)
    (machineName packageName pathPrefix namePrefix : GoString) : Value → Int → Traced (List File)
  | .struct path fields, currDepth =>
    if currDepth = g.Depth then
      emitAtDepth c g kv machineName packageName pathPrefix namePrefix (.struct path fields)
    else
      fieldsLoop c g kv machineName packageName pathPrefix namePrefix fields currDepth [] []
  | .broken path err, currDepth =>
    if currDepth = g.Depth then
      emitAtDepth c g kv machineName packageName pathPrefix namePrefix (.broken path err)
    else (.error err, [])
/-- The loop `for it.Next()` of `generateFilesAtDepth` over the fields still
to come, with the files collected and the backend runs made so far. -/
def fieldsLoop (c : Collab) (g : GoTypes) (kv : KindVersion)
    (machineName packageName pathPrefix namePrefix : GoString) :
    List Value → Int → List File → List CogRequest → Traced (List File)
  | [], _, files, calls => (.ok files, calls)
  | v :: rest, currDepth, files, calls =>
    match generateFilesAtDepth c g kv machineName packageName pathPrefix namePrefix v
        (wrapInt (currDepth + 1)) with
    | (.error err, made) => (.error err, calls ++ made)
    | (.ok f, made) =>
      fieldsLoop c g kv machineName packageName pathPrefix namePrefix rest currDepth
        (files ++ f) (calls ++ made)
end

/-- The pipeline of the whole-schema branch of `generateFiles`. -/
def schemaRequest (g : GoTypes) (version : KindVersion) (name packageName : GoString) : CogRequest :=
  { PackageName := packageName
    Value := version.Schema
    ForceEnvelope := name
    NameFunc := none
    SchemaTransformations :=
      if g.AddKubernetesCodegen then
        [SchemaTransformation.AppendCommentToObjects openAPIGenComment] else []
    AnyAsInterface := g.AnyAsInterface
    AllowMarshalEmptyDisjunctions := version.AllowMarshalEmptyDisjunctions }

/-- The relative path of the file of whole-schema mode. -/
def schemaRelativePath (c : Collab) (machineName pathPrefix : GoString) : GoString :=
  Sprintf c.fmtOther (pathJoin [pathPrefix, utf8 "%s_gen.go"])
    [stringsToLower c.lowerRune machineName]

/-- Source `generateFiles`. -/
def generateFiles (c : Collab) (g : GoTypes) (version : KindVersion)
    (name machineName packageName pathPrefix : GoString) : Traced (List File) :=
  if g.Depth > 0 then
    let namePrefix := if !g.GroupByKind then exportField c.upperRune name else []
    generateFilesAtDepth c g version machineName packageName pathPrefix namePrefix version.Schema 0
  else
    let req := schemaRequest g version name packageName
    match c.Run req with
    | .error err => (.error err, [req])
    | .ok files =>
      if h : files.length ≠ 1 then (.error (errExpectedOneFile files.length), [req])
      else
        (.ok [{ Data := (files.get ⟨0, by omega⟩).Data
                RelativePath := schemaRelativePath c machineName pathPrefix
                From := [JennyName] }], [req])

/-- The error `fmt.Errorf("version '%s' of kind '%s' does not exist", ...)`. -/
def errNoVersion (c : Collab) (current name : GoString) : GoError :=
  ⟨Sprintf c.fmtOther (utf8 "version '%s' of kind '%s' does not exist") [current, name]⟩

/-- The loop of `Generate` over the versions still to come, with the files
collected and the backend runs made so far. -/
def versionsLoop (c : Collab) (g : GoTypes) (kind : Kind) :
    List KindVersion → List File → List CogRequest → Traced (List File)
  | [], files, calls => (.ok files, calls)
  | ver :: rest, files, calls =>
    if !ver.GoEnabled then versionsLoop c g kind rest files calls
    else
      match generateFiles c g ver kind.Name kind.Properties.MachineName
          (c.ToPackageName ver.Version) (c.GetGeneratedPath g.GroupByKind kind ver.Version) with
      | (.error err, made) => (.error err, calls ++ made)
      | (.ok generated, made) => versionsLoop c g kind rest (files ++ generated) (calls ++ made)

/-- Source `Generate`. -/
def Generate (c : Collab) (g : GoTypes) (kind : Kind) : Traced (List File) :=
  if g.GenerateOnlyCurrent then
    match kind.Version kind.Properties.Current with
    | none => (.error (errNoVersion c kind.Properties.Current kind.Name), [])
    | some ver =>
      generateFiles c g ver kind.Name kind.Properties.MachineName kind.Properties.MachineName
        kind.Properties.MachineName
  else versionsLoop c g kind kind.Versions [] []



/-! ## Sample collaborators -/

/-- Modelled from the spec: the helper `TrimPathPrefix` ("path-trimming
primitives"), which strips from a path the selectors it shares with the path
of the schema root. -/
def trimPathPrefixModel : Path → Path → Path
  | s :: path, p :: root => if s = p then trimPathPrefixModel path root else s :: path
  | path, _ => path

/-- Modelled from the spec: a set of collaborators for evaluating the jenny on
concrete inputs. `SelEq` is equality of selectors, `GetGeneratedPath` is
`<kindMachineName>/<version>` when grouping by kind and `<version>` otherwise,
a path renders as its selectors joined by dots, the case tables are those of
ASCII, and the backend returns one file that holds the envelope name. -/
def sampleCollab : Collab :=
  { SelEq := fun s1 s2 => decide (s1 = s2)
    TrimPathPrefix := trimPathPrefixModel
    ToPackageName := fun version => version
    GetGeneratedPath := fun groupByKind kind version =>
      if groupByKind then pathJoin [kind.Properties.MachineName, version] else pathJoin [version]
    pathString := fun path => stringsJoin (path.map Selector.String) [46]
    Run := fun req => .ok [{ RelativePath := utf8 "types_gen.go", Data := req.ForceEnvelope, From := [] }]
    upperRune := fun r => if 97 ≤ r ∧ r ≤ 122 then r - 32 else r
    lowerRune := fun r => if 65 ≤ r ∧ r ≤ 90 then r + 32 else r
    fmtOther := fun _ _ _ => [] }

/-- A selector from the text of its rendering. -/
def sel (s : String) : Selector := ⟨utf8 s⟩

/-! ## Specification-side notions for the naming closure -/

/-- The first `i` selectors of the two paths are pairwise `SelEq`. -/
def AgreeUpTo (c : Collab) (d r : Path) (i : Nat) : Prop :=
  ∀ (j : Nat) (hd : j < d.length) (hr : j < r.length), j < i →
    c.SelEq (d.get ⟨j, hd⟩) (r.get ⟨j, hr⟩) = true

/-- The conditions of the naming resolver on the number `i` of selectors
dropped: within both paths, the dropped selectors agree, and `i` is at most
`maxNamingDepth` when that bound is positive. -/
def Droppable (c : Collab) (d r : Path) (maxNamingDepth : Int) (i : Nat) : Prop :=
  i ≤ d.length ∧ i ≤ r.length ∧ AgreeUpTo c d r i ∧ (maxNamingDepth > 0 → (i : Int) ≤ maxNamingDepth)

/-- The first `i` selectors of the two paths are pairwise equal. -/
def EqualUpTo (d r : Path) (i : Nat) : Prop :=
  ∀ (j : Nat) (hd : j < d.length) (hr : j < r.length), j < i →
    d.get ⟨j, hd⟩ = r.get ⟨j, hr⟩

/-- A string `s` trimmed of the characters `?` (63) and `#` (35) at both ends:
`name` is what is left of `s` when a run of such bytes is taken off either
end, and `name` itself neither starts nor ends with one. -/
def TrimmedOf (name s : GoString) : Prop :=
  ∃ l r, s = l ++ name ++ r ∧ (∀ b ∈ l, b = 63 ∨ b = 35) ∧ (∀ b ∈ r, b = 63 ∨ b = 35) ∧
    (∀ b, name.head? = some b → b ≠ 63 ∧ b ≠ 35) ∧
    (∀ b, name.getLast? = some b → b ≠ 63 ∧ b ≠ 35)

/-- The selector made optional (`cue.Selector.Optional`), on its rendering: an
optional selector `a?` is left as it is, a required selector `a!` becomes
`a?`, and any other selector `a` becomes `a?`. -/
def Selector.Optional (s : Selector) : Selector :=
  match s.String.getLast? with
  | some 63 => s
  | some 33 => ⟨s.String.dropLast ++ [63]⟩
  | _ => ⟨s.String ++ [63]⟩

/-- Modelled from the spec: the helper `SelEq` of the package (the selector
comparison of the Path Utilities), which is not in `gotypes.go`. Two selectors
are equivalent when they are equal, or equal once both are made optional. -/
def selEqModel (s1 s2 : Selector) : Bool :=
  decide (s1 = s2) || decide (s1.Optional = s2.Optional)

/-- The sample collaborators with the modelled `SelEq`, which ignores whether
a selector is optional. -/
def optionalCollab : Collab :=
  { sampleCollab with SelEq := selEqModel }

/-- The sample collaborators with a backend stub that returns the given files
on every run. -/
def stubCollab (files : List File) : Collab :=
  { sampleCollab with Run := fun _ => .ok files }

/-- The field `spec` of the sample schema, with the fields `title` and
`count`. -/
def sampleSpec : Value :=
  .struct [sel "spec"] [.struct [sel "spec", sel "title"] [], .struct [sel "spec", sel "count"] []]

/-- A sample schema rooted at the empty path: `spec` with its two fields, and
`status` without fields. -/
def sampleSchema : Value :=
  .struct [] [sampleSpec, .struct [sel "status"] []]

/-- A sample Kind Version over the sample schema. -/
def sampleVersion (version : String) (enabled : Bool) : KindVersion :=
  { Version := utf8 version, Schema := sampleSchema, GoEnabled := enabled,
    AllowMarshalEmptyDisjunctions := false }

/-- A sample kind `Foo` with the versions `v1`, `v2` (Go codegen disabled) and
`v3`, and the given current-version marker. -/
def sampleKind (current : String) : Kind :=
  { Name := utf8 "Foo"
    Properties := { Current := utf8 current, MachineName := utf8 "foo" }
    Versions := [sampleVersion "v1" true, sampleVersion "v2" false, sampleVersion "v3" true] }

/-- A sample kind `Foo` (machine name `foo`) with one enabled version of the
given version string. -/
def sampleKindOfVersion (version : String) : Kind :=
  { Name := utf8 "Foo"
    Properties := { Current := utf8 version, MachineName := utf8 "foo" }
    Versions := [sampleVersion version true] }

/-- A sample jenny configuration. -/
def sampleGoTypes (onlyCurrent : Bool) (depth namingDepth : Int) (groupByKind : Bool) : GoTypes :=
  { GenerateOnlyCurrent := onlyCurrent, Depth := depth, NamingDepth := namingDepth,
    AddKubernetesCodegen := false, GroupByKind := groupByKind, AnyAsInterface := false }

/-! ## Specification-side notions for the tree walk -/

/-- The schema nodes at exactly depth `n` below a node, in depth-first order
with the fields of every node in their iteration order. A node whose fields
cannot be iterated, or that has none, has no node below it. -/
def nodesAtDepth : Nat → Value → List Value
  | 0, v => [v]
  | n + 1, v =>
    match v.Fields with
    | .ok fields => fields.flatMap (nodesAtDepth n)
    | .error _ => []

/-- The artifact of depth-targeted mode for a node and the bytes emitted for
it. -/
def depthArtifact (c : Collab) (kv : KindVersion) (machineName pathPrefix : GoString) (v : Value)
    (goBytes : GoString) : File :=
  { Data := goBytes
    RelativePath := depthRelativePath c machineName pathPrefix (fieldNameOf c v kv)
    From := [JennyName] }

/-- One step of the walk in traversal order: the field iteration of a node
above the target depth, or the emission of a node at the target depth. -/
inductive Visit where
  | iterate (v : Value)
  | emit (v : Value)

/-- The nodes the walk meets from a node `n` levels above the target depth
when nothing fails, in the order it meets them: the node itself, then the
traversals of its fields in their iteration order. -/
def traversal : Nat → Value → List Visit
  | 0, v => [.emit v]
  | n + 1, v =>
    .iterate v ::
      match v.Fields with
      | .ok fields => fields.flatMap (traversal n)
      | .error _ => []

/-- The error of a step, if it fails: the error of `Fields()` on a node above
the target depth, the error of `GoTypesFromCUE` on a node at the target
depth. -/
def visitFailure (c : Collab) (g : GoTypes) (kv : KindVersion) (packageName namePrefix : GoString) :
    Visit → Option GoError
  | .iterate v =>
    match v.Fields with
    | .ok _ => none
    | .error err => some err
  | .emit v =>
    match (GoTypesFromCUE c v (depthConfig c g v kv packageName namePrefix) (depthNaming g v)).1 with
    | .ok _ => none
    | .error err => some err

/-- The backend runs of a step: one for a node handed to the emitter. -/
def visitCalls (c : Collab) (g : GoTypes) (kv : KindVersion) (packageName namePrefix : GoString) :
    Visit → List CogRequest
  | .iterate _ => []
  | .emit v => [cueRequest v (depthConfig c g v kv packageName namePrefix) (depthNaming g v)]

/-- The outcome of one step of the walk on its own. -/
def walkStep (c : Collab) (g : GoTypes) (kv : KindVersion)
    (machineName packageName pathPrefix namePrefix : GoString) : Visit → Traced (List File)
  | .iterate v =>
    match v.Fields with
    | .ok _ => (.ok [], [])
    | .error err => (.error err, [])
  | .emit v => emitAtDepth c g kv machineName packageName pathPrefix namePrefix v

/-- A list of steps run one after the other, up to the first that fails, with
the files collected and the backend runs made so far. -/
def runVisits (step : Visit → Traced (List File)) :
    List Visit → List File → List CogRequest → Traced (List File)
  | [], files, calls => (.ok files, calls)
  | x :: rest, files, calls =>
    match step x with
    | (.error err, made) => (.error err, calls ++ made)
    | (.ok f, made) => runVisits step rest (files ++ f) (calls ++ made)

/-- A sample schema whose second field `status` cannot be iterated: `Fields()`
fails on it. -/
def sampleBrokenSchema : Value :=
  .struct []
    [.struct [sel "spec"]
        [.struct [sel "spec", sel "title"] [], .struct [sel "spec", sel "count"] []],
      .broken [sel "status"] ⟨utf8 "cannot use value as struct"⟩,
      .struct [sel "extra"] [.struct [sel "extra", sel "note"] []]]

/-- The name prefix of a pipeline run: the argument of its first schema
transformation when that is `cog.PrefixObjectsNames`. -/
def CogRequest.NamePrefix (req : CogRequest) : Option GoString :=
  match req.SchemaTransformations with
  | SchemaTransformation.PrefixObjectsNames namePrefix :: _ => some namePrefix
  | _ => none

/-- The directory part of `path.Join(pathPrefix, file)` for a file name `file`
that is a single path component: the cleaned path prefix, followed by a slash
unless it is empty or the root. -/
def joinDir (pathPrefix : GoString) : GoString :=
  if pathPrefix = [] then []
  else
    let rooted := decide (pathPrefix.head? = some 47)
    let out := ((splitSlash pathPrefix).foldl (cleanStep rooted) []).reverse
    (if rooted then [47] else []) ++ (if out = [] then [] else stringsJoin out [47] ++ [47])

end Jennies

/-! # The local environment command (`cmd/grafana-app-sdk/project_local.go`) -/

namespace LocalEnv

open Jennies

/-- A value of the Go interface type `any`, by its dynamic type: the types
the switch of `parsePluginJSONValue` names, and any other type under its
name. Integers carry their value, floats the bits of their encoding. -/
inductive AnyValue where
  | mapValue (entries : List (GoString × AnyValue))
  | sliceValue (elems : List AnyValue)
  | stringValue (s : GoString)
  | intValue (n : Int)
  | int32Value (n : Int)
  | int64Value (n : Int)
  | float32Value (bits : Nat)
  | float64Value (bits : Nat)
  | otherValue (typeName : GoString)

/-- The name of the dynamic type of a value, as the Go runtime prints it. -/
def AnyValue.typeString : AnyValue → GoString
  | .mapValue _ => utf8 "map[string]interface {}"
  | .sliceValue _ => utf8 "[]interface {}"
  | .stringValue _ => utf8 "string"
  | .intValue _ => utf8 "int"
  | .int32Value _ => utf8 "int32"
  | .int64Value _ => utf8 "int64"
  | .float32Value _ => utf8 "float32"
  | .float64Value _ => utf8 "float64"
  | .otherValue typeName => typeName

/-- The outcome of a Go call: it returns, or it panics with a message. -/
inductive Outcome (α : Type) where
  | returned (a : α)
  | panicked (msg : GoString)
deriving DecidableEq, Repr

/-- The type assertion `v.(int)` in its one-result form: the value when the
dynamic type of `v` is `int`, and otherwise the run-time panic
`interface conversion: interface {} is <dynamic type>, not int`. -/
def assertInt (v : AnyValue) : Outcome Int :=
  match v with
  | .intValue n => .returned n
  | _ => .panicked (utf8 "interface conversion: interface {} is " ++ v.typeString ++ utf8 ", not int")

/-- Go `strconv.Itoa`: the decimal digits of an integer, after a minus sign
when it is negative. -/
def Itoa (n : Int) : GoString :=
  if n < 0 then 45 :: decimal (-n).toNat else decimal n.toNat

/-- The standard library functions `parsePluginJSONValue` calls besides
`strconv.Itoa`: `json.Marshal`, `strconv.FormatFloat` (value bits, format
byte, precision, bit size), the conversion `float64(x)` of a `float32`, and
the verbs of `fmt` other than `%s` and `%%`. -/
structure StdLib where
  Marshal : AnyValue → Except GoError GoString
  FormatFloat : Nat → Nat → Int → Int → GoString
  float64OfFloat32 : Nat → Nat
  fmtOther : GoString → List GoString → Nat → GoString

/-- Source `parsePluginJSONValue`: the type switch on `v`. In the case
`int, int32, int64` the switch variable keeps the interface type, and the
string is `strconv.Itoa(v.(int))`. -/
def parsePluginJSONValue (lib : StdLib) (v : AnyValue) : Outcome (Except GoError GoString) :=
  match v with
  | .mapValue _ | .sliceValue _ =>
    match lib.Marshal v with
    | .error err => .returned (.error err)
    | .ok val => .returned (.ok val)
  | .stringValue cast => .returned (.ok cast)
  | .intValue _ | .int32Value _ | .int64Value _ =>
    match assertInt v with
    | .panicked msg => .panicked msg
    | .returned n => .returned (.ok (Itoa n))
  | .float32Value cast => .returned (.ok (lib.FormatFloat (lib.float64OfFloat32 cast) 69 (-1) 32))
  | .float64Value cast => .returned (.ok (lib.FormatFloat cast 69 (-1) 64))
  | .otherValue _ => .returned (.error ⟨Sprintf lib.fmtOther (utf8 "unknown type") []⟩)

end LocalEnv

namespace Jennies

/-! # Theorems -/

/-! ## The naming closure -/

/-- The counting loop keeps the conditions on the number of dropped selectors
and ends on the largest number that meets them. -/
theorem nameFuncLoop_spec (c : Collab) (d r : Path) (m : Int) (i : Nat)
    (hi : Droppable c d r m i) :
    Droppable c d r m (nameFuncLoop c d r m i) ∧
      ∀ k, Droppable c d r m k → k ≤ nameFuncLoop c d r m i := by
  induction i using nameFuncLoop.induct c d r m with
  | case1 x hx hcap =>
    rw [nameFuncLoop]
    simp only [hx, hcap, and_self, dite_true, if_true]
    refine ⟨hi, fun k hk => ?_⟩
    have := hk.2.2.2 hcap.1
    omega
  | case2 x hx hcap hne =>
    rw [nameFuncLoop]
    simp only [hx, hcap, hne, and_self, dite_true, if_true, if_false]
    refine ⟨hi, fun k hk => ?_⟩
    by_contra hlt
    have := hk.2.2.1 x hx.1 hx.2 (by omega)
    simp only [List.get_eq_getElem] at this
    simp [this] at hne
  | case3 x hx hcap hne ih =>
    rw [nameFuncLoop]
    simp only [hx, hcap, hne, and_self, dite_true, if_false]
    apply ih
    refine ⟨by omega, by omega, ?_, fun hm => ?_⟩
    · intro j hd hr hj
      rcases Nat.lt_succ_iff_lt_or_eq.mp hj with hlt | heq
      · exact hi.2.2.1 j hd hr hlt
      · subst heq
        simpa using hne
    · have : ¬ ((x : Int) ≥ m) := fun h => hcap ⟨hm, h⟩
      push_cast
      omega
  | case4 x hx =>
    rw [nameFuncLoop]
    simp only [hx, dite_false]
    refine ⟨hi, fun k hk => ?_⟩
    have h1 := hk.1
    have h2 := hk.2.1
    have h3 := hi.1
    have h4 := hi.2.1
    omega


/-- The name `nameFunc` resolves is the trimmed rendering of the definition
path without its first `i` selectors, for the largest `i` that meets the
conditions on the number of dropped selectors. -/
theorem nameFunc_largest_droppable (c : Collab) (v : Value) (maxNamingDepth : Int) (d : Path) :
    ∃ i, Droppable c d v.Path maxNamingDepth i ∧
      (∀ k, Droppable c d v.Path maxNamingDepth k → k ≤ i) ∧
      nameFunc c v maxNamingDepth d = stringsTrim (c.pathString (d.drop i)) (utf8 "?#") := by
  have h0 : Droppable c d v.Path maxNamingDepth 0 :=
    ⟨Nat.zero_le _, Nat.zero_le _, fun j _ _ hj => absurd hj (Nat.not_lt_zero j),
      fun hm => by omega⟩
  obtain ⟨h1, h2⟩ := nameFuncLoop_spec c d v.Path maxNamingDepth 0 h0
  refine ⟨nameFuncLoop c d v.Path maxNamingDepth 0, h1, h2, ?_⟩
  unfold nameFunc
  by_cases hpos : nameFuncLoop c d v.Path maxNamingDepth 0 > 0
  · simp only [hpos, if_true]
  · have hz : nameFuncLoop c d v.Path maxNamingDepth 0 = 0 := by omega
    simp only [hz, gt_iff_lt, lt_self_iff_false, if_false, List.drop_zero]

/-- What `takeWhile` takes are bytes it accepts. -/
theorem mem_takeWhile_accepts (p : Nat → Bool) (l : GoString) :
    ∀ b ∈ l.takeWhile p, p b = true := by
  induction l with
  | nil => intro b hb; simp at hb
  | cons a l ih =>
    intro b hb
    by_cases ha : p a = true
    · rw [List.takeWhile_cons_of_pos ha] at hb
      rcases List.mem_cons.mp hb with rfl | hb
      · exact ha
      · exact ih b hb
    · rw [List.takeWhile_cons_of_neg ha] at hb
      simp at hb

/-- What `dropWhile` leaves does not start with a byte it drops. -/
theorem head_dropWhile_not (p : Nat → Bool) (l : GoString) :
    ∀ b, (l.dropWhile p).head? = some b → p b = false := by
  induction l with
  | nil => intro b hb; simp at hb
  | cons a l ih =>
    intro b hb
    by_cases ha : p a = true
    · rw [List.dropWhile_cons_of_pos ha] at hb
      exact ih b hb
    · rw [List.dropWhile_cons_of_neg ha] at hb
      simp only [List.head?_cons, Option.some.injEq] at hb
      subst hb
      simpa using ha

/-- What `dropWhile` leaves ends as the list does, when it leaves anything. -/
theorem getLast_dropWhile (p : Nat → Bool) (l : GoString) :
    l.dropWhile p ≠ [] → (l.dropWhile p).getLast? = l.getLast? := by
  induction l with
  | nil => intro h; simp at h
  | cons a l ih =>
    intro h
    by_cases ha : p a = true
    · rw [List.dropWhile_cons_of_pos ha] at h ⊢
      rw [ih h]
      cases l with
      | nil => simp at h
      | cons a2 l => simp [List.getLast?_cons_cons]
    · rw [List.dropWhile_cons_of_neg ha]

/-- The result of `strings.Trim(s, "?#")` is `s` without the run of `?` and
`#` at either end, and neither starts nor ends with one of the two. -/
theorem stringsTrim_trimmedOf (s : GoString) : TrimmedOf (stringsTrim s (utf8 "?#")) s := by
  have hcut : utf8 "?#" = [63, 35] := by decide
  have hp : ∀ b, (decide (b ∈ utf8 "?#")) = true ↔ (b = 63 ∨ b = 35) := by
    intro b
    rw [hcut]
    simp
  have hnp : ∀ b, (decide (b ∈ utf8 "?#")) = false → b ≠ 63 ∧ b ≠ 35 := by
    intro b hb
    rw [hcut] at hb
    simpa using hb
  have hsplit : s = (s.reverse.dropWhile (fun c => decide (c ∈ utf8 "?#"))).reverse ++
      (s.reverse.takeWhile (fun c => decide (c ∈ utf8 "?#"))).reverse := by
    rw [← List.reverse_append, List.takeWhile_append_dropWhile, List.reverse_reverse]
  refine ⟨((s.reverse.dropWhile (fun c => decide (c ∈ utf8 "?#"))).reverse).takeWhile
      (fun c => decide (c ∈ utf8 "?#")),
    (s.reverse.takeWhile (fun c => decide (c ∈ utf8 "?#"))).reverse, ?_, ?_, ?_, ?_, ?_⟩
  · unfold stringsTrim
    rw [List.takeWhile_append_dropWhile]
    exact hsplit
  · intro b hb
    exact (hp b).mp (mem_takeWhile_accepts _ _ b hb)
  · intro b hb
    exact (hp b).mp (mem_takeWhile_accepts _ _ b (List.mem_reverse.mp hb))
  · intro b hb
    exact hnp b (head_dropWhile_not _ _ b hb)
  · intro b hb
    unfold stringsTrim at hb
    by_cases hne : ((s.reverse.dropWhile (fun c => decide (c ∈ utf8 "?#"))).reverse).dropWhile
        (fun c => decide (c ∈ utf8 "?#")) = []
    · rw [hne] at hb
      simp at hb
    · rw [getLast_dropWhile _ _ hne, List.getLast?_reverse] at hb
      exact hnp b (head_dropWhile_not _ _ b hb)

/-- C1 as stated fails: the selectors are compared with `SelEq`, not for
equality. With root path `a.b`, definition path `a?.b.c` and no bound
(`maxNamingDepth = 0`) the first selectors `a?` and `a` differ, so the largest
number of pairwise equal leading selectors is 0 and the claim gives the name
`a?.b.c`; the code takes `a?` and `a` for equivalent, drops two selectors and
resolves the name `c`. -/
theorem nameFunc_not_pairwise_equal :
    nameFunc optionalCollab (Value.struct [sel "a", sel "b"] []) 0
      [sel "a?", sel "b", sel "c"] = utf8 "c" ∧
    stringsTrim (optionalCollab.pathString ([sel "a?", sel "b", sel "c"].drop 0)) (utf8 "?#") =
      utf8 "a?.b.c" ∧
    ¬ ∃ i, i ≤ [sel "a?", sel "b", sel "c"].length ∧ i ≤ [sel "a", sel "b"].length ∧
      EqualUpTo [sel "a?", sel "b", sel "c"] [sel "a", sel "b"] i ∧
      (∀ k, k ≤ [sel "a?", sel "b", sel "c"].length → k ≤ [sel "a", sel "b"].length →
        EqualUpTo [sel "a?", sel "b", sel "c"] [sel "a", sel "b"] k → k ≤ i) ∧
      nameFunc optionalCollab (Value.struct [sel "a", sel "b"] []) 0
          [sel "a?", sel "b", sel "c"] =
        stringsTrim (optionalCollab.pathString ([sel "a?", sel "b", sel "c"].drop i))
          (utf8 "?#") := by
  have hname : nameFunc optionalCollab (Value.struct [sel "a", sel "b"] []) 0
      [sel "a?", sel "b", sel "c"] = utf8 "c" := by
    simp [nameFunc, nameFuncLoop, optionalCollab, sampleCollab, Value.Path, sel, selEqModel]
    decide
  refine ⟨hname, by decide, ?_⟩
  rintro ⟨i, _, _, heq, _, hres⟩
  have hi : i = 0 := by
    by_contra hpos
    have h0 := heq 0 (by decide) (by decide) (by omega)
    revert h0
    decide
  subst hi
  rw [hname] at hres
  revert hres
  decide

/-- C1, amended. For every definition path `d`, every emitted node `v` (root
path `v.Path`) and every integer `maxNamingDepth`, the name `nameFunc`
resolves is the rendering of `d` without its first `i` selectors, trimmed of
`?` and `#` at both ends, where `i` is the largest number within both paths
such that the first `i` selectors are pairwise equivalent under `SelEq` and,
only when `maxNamingDepth > 0`, `i <= maxNamingDepth`. `SelEq` holds between
two selectors that are equal, or equal once both are made optional. With root
path `a.b` and `maxNamingDepth = 2`, the definition path `a.b.c.d` gives `c.d`
and `a.b.#c.d?` gives `c.d` too; with root path `a.b` and no bound, `a?.b.c`
gives `c` and `x.b.c` gives `x.b.c`. -/
theorem nameFunc_drops_largest_agreeing_prefix :
    (∀ (c : Collab) (v : Value) (maxNamingDepth : Int) (d : Path),
      ∃ i, Droppable c d v.Path maxNamingDepth i ∧
        (∀ k, Droppable c d v.Path maxNamingDepth k → k ≤ i) ∧
        nameFunc c v maxNamingDepth d = stringsTrim (c.pathString (d.drop i)) (utf8 "?#") ∧
        TrimmedOf (nameFunc c v maxNamingDepth d) (c.pathString (d.drop i))) ∧
    (∀ (c : Collab) (d r : Path) (i : Nat), c.SelEq = selEqModel →
      (AgreeUpTo c d r i ↔
        ∀ (j : Nat) (hd : j < d.length) (hr : j < r.length), j < i →
          d.get ⟨j, hd⟩ = r.get ⟨j, hr⟩ ∨
            (d.get ⟨j, hd⟩).Optional = (r.get ⟨j, hr⟩).Optional)) ∧
    nameFunc optionalCollab (Value.struct [sel "a", sel "b"] []) 2
      [sel "a", sel "b", sel "c", sel "d"] = utf8 "c.d" ∧
    nameFunc optionalCollab (Value.struct [sel "a", sel "b"] []) 2
      [sel "a", sel "b", sel "#c", sel "d?"] = utf8 "c.d" ∧
    nameFunc optionalCollab (Value.struct [sel "a", sel "b"] []) 0
      [sel "a?", sel "b", sel "c"] = utf8 "c" ∧
    nameFunc optionalCollab (Value.struct [sel "a", sel "b"] []) 0
      [sel "x", sel "b", sel "c"] = utf8 "x.b.c" := by
  refine ⟨fun c v m d => ?_, fun c d r i hc => ?_, ?_, ?_, ?_, ?_⟩
  · obtain ⟨i, h1, h2, h3⟩ := nameFunc_largest_droppable c v m d
    refine ⟨i, h1, h2, h3, ?_⟩
    rw [h3]
    exact stringsTrim_trimmedOf _
  · unfold AgreeUpTo
    rw [hc]
    simp only [selEqModel, Bool.or_eq_true, decide_eq_true_eq]
  · simp [nameFunc, nameFuncLoop, optionalCollab, sampleCollab, Value.Path, sel, selEqModel]
    decide
  · simp [nameFunc, nameFuncLoop, optionalCollab, sampleCollab, Value.Path, sel, selEqModel]
    decide
  · simp [nameFunc, nameFuncLoop, optionalCollab, sampleCollab, Value.Path, sel, selEqModel]
    decide
  · simp [nameFunc, nameFuncLoop, optionalCollab, sampleCollab, Value.Path, sel, selEqModel]
    decide

/-! ## exportField -/

/-- C10 (the code at the failing input). `exportField` upper-cases the first
byte, not the first character: a first byte below 0x80 is replaced by its
ASCII upper-case form and the rest is kept, but a first byte from 0x80 on (the
lead byte of any non-ASCII character) is replaced by the three bytes of U+FFFD
while the continuation bytes stay behind. On the field name `éa` the result is
`EF BF BD A9 61`, not `Éa`, and a second application changes it again. -/
theorem exportField_upper_cases_first_byte_only :
    (∀ (up : Nat → Nat) (b : Nat) (rest : GoString), b < 0x80 →
      exportField up (b :: rest) = (if 97 ≤ b ∧ b ≤ 122 then b - 32 else b) :: rest) ∧
    (∀ (up : Nat → Nat) (b : Nat) (rest : GoString), 0x80 ≤ b → up RuneError = RuneError →
      exportField up (b :: rest) = 0xEF :: 0xBF :: 0xBD :: rest) ∧
    exportField sampleCollab.upperRune (utf8 "éa") = [0xEF, 0xBF, 0xBD, 0xA9, 0x61] ∧
    exportField sampleCollab.upperRune (utf8 "éa") ≠ utf8 "Éa" ∧
    exportField sampleCollab.upperRune (exportField sampleCollab.upperRune (utf8 "éa")) ≠
      exportField sampleCollab.upperRune (utf8 "éa") := by
  refine ⟨fun up b rest hb => ?_, fun up b rest hb hup => ?_, by decide, by decide, by decide⟩
  · simp [exportField, stringsToUpper, hb]
  · have hall : ([b].all (fun c => decide (c < 0x80))) = false := by
      simp; omega
    have hdec : decodeRune [b] = (RuneError, 1) := by
      unfold decodeRune
      have h1 : ¬ b < 0x80 := by omega
      simp only [h1, if_false]
      by_cases h2 : b < 0xC2 ∨ 0xF4 < b
      · simp only [h2, if_true]
      · simp only [h2, if_false]
        split_ifs <;> simp_all
    simp [exportField, stringsToUpper, hall, stringsMap, mapRunes, hdec, hup]
    simp [RuneError, encodeRune]

/-! ## The backend contract -/

/-- C4. When the backend returns the files `files` without error,
`GoTypesFromCUE` returns an error exactly when `files` does not hold one file,
the bytes of the file when it holds exactly one, and no bytes when it holds
none or two; the whole-schema branch of `generateFiles` (`Depth` not above 0)
does the same with the files `files0` of its own run, and wraps the bytes of
the one file in its artifact. -/
theorem backend_file_count_contract (c : Collab) (g : GoTypes) (v : Value) (cfg : CUEGoConfig)
    (maxNamingDepth : Int) (version : KindVersion) (name machineName packageName pathPrefix : GoString)
    (files files0 : List File)
    (hdepth : ¬ g.Depth > 0)
    (hrun : c.Run (cueRequest v cfg maxNamingDepth) = .ok files)
    (hrun0 : c.Run (schemaRequest g version name packageName) = .ok files0) :
    (((∃ err, (GoTypesFromCUE c v cfg maxNamingDepth).1 = .error err) ↔ files.length ≠ 1) ∧
      (∀ f, files = [f] → (GoTypesFromCUE c v cfg maxNamingDepth).1 = .ok f.Data) ∧
      (files.length = 0 ∨ files.length = 2 →
        ∀ bytes, (GoTypesFromCUE c v cfg maxNamingDepth).1 ≠ .ok bytes)) ∧
    (((∃ err, (generateFiles c g version name machineName packageName pathPrefix).1 = .error err) ↔
        files0.length ≠ 1) ∧
      (∀ f, files0 = [f] →
        (generateFiles c g version name machineName packageName pathPrefix).1 =
          .ok [{ Data := f.Data, RelativePath := schemaRelativePath c machineName pathPrefix,
                 From := [JennyName] }]) ∧
      (files0.length = 0 ∨ files0.length = 2 →
        ∀ out, (generateFiles c g version name machineName packageName pathPrefix).1 ≠ .ok out)) := by
  constructor
  · by_cases hlen : files.length ≠ 1
    · have hres : (GoTypesFromCUE c v cfg maxNamingDepth).1 = .error (errExpectedOneFile files.length) := by
        simp only [GoTypesFromCUE, hrun]
        rw [dif_pos hlen]
      refine ⟨⟨fun _ => hlen, fun _ => ⟨_, hres⟩⟩, fun f hf => ?_, fun _ bytes => ?_⟩
      · subst hf
        simp at hlen
      · rw [hres]
        exact fun h => Except.noConfusion h
    · obtain ⟨f, hf⟩ : ∃ f, files = [f] := List.length_eq_one.mp (not_not.mp hlen)
      subst hf
      have hres : (GoTypesFromCUE c v cfg maxNamingDepth).1 = .ok f.Data := by
        simp [GoTypesFromCUE, hrun]
      refine ⟨⟨fun ⟨err, herr⟩ => ?_, fun h => absurd h hlen⟩, fun f2 hf2 => ?_, fun h => ?_⟩
      · rw [hres] at herr
        exact Except.noConfusion herr
      · rw [hres]
        cases hf2
        rfl
      · simp at h
  · by_cases hlen : files0.length ≠ 1
    · have hres : (generateFiles c g version name machineName packageName pathPrefix).1 =
          .error (errExpectedOneFile files0.length) := by
        simp only [generateFiles, hdepth, if_false, hrun0]
        rw [dif_pos hlen]
      refine ⟨⟨fun _ => hlen, fun _ => ⟨_, hres⟩⟩, fun f hf => ?_, fun _ out => ?_⟩
      · subst hf
        simp at hlen
      · rw [hres]
        exact fun h => Except.noConfusion h
    · obtain ⟨f, hf⟩ : ∃ f, files0 = [f] := List.length_eq_one.mp (not_not.mp hlen)
      subst hf
      have hres : (generateFiles c g version name machineName packageName pathPrefix).1 =
          .ok [{ Data := f.Data, RelativePath := schemaRelativePath c machineName pathPrefix,
                 From := [JennyName] }] := by
        simp [generateFiles, hdepth, hrun0]
      refine ⟨⟨fun ⟨err, herr⟩ => ?_, fun h => absurd h hlen⟩, fun f2 hf2 => ?_, fun h => ?_⟩
      · rw [hres] at herr
        exact Except.noConfusion herr
      · rw [hres]
        cases hf2
        rfl
      · simp at h

/-- C4 at a backend stub that returns two files: both functions report an
error. -/
theorem backend_file_count_contract_witness :
    ((∃ err, (GoTypesFromCUE (stubCollab [⟨[], [1], []⟩, ⟨[], [2], []⟩]) sampleSchema
        ⟨[], [], false, false, false, []⟩ 0).1 = .error err) ↔
      [(⟨[], [1], []⟩ : File), ⟨[], [2], []⟩].length ≠ 1) ∧
    ((∃ err, (generateFiles (stubCollab [⟨[], [1], []⟩, ⟨[], [2], []⟩])
        (sampleGoTypes false 0 0 false) (sampleVersion "v1" true) (utf8 "Foo") (utf8 "foo")
        (utf8 "v1") (utf8 "v1")).1 = .error err) ↔
      [(⟨[], [1], []⟩ : File), ⟨[], [2], []⟩].length ≠ 1) :=
  have h := backend_file_count_contract (stubCollab [⟨[], [1], []⟩, ⟨[], [2], []⟩])
    (sampleGoTypes false 0 0 false) sampleSchema ⟨[], [], false, false, false, []⟩ 0
    (sampleVersion "v1" true) (utf8 "Foo") (utf8 "foo") (utf8 "v1") (utf8 "v1")
    [⟨[], [1], []⟩, ⟨[], [2], []⟩] [⟨[], [1], []⟩, ⟨[], [2], []⟩] (by decide) rfl rfl
  ⟨h.1.1, h.2.1⟩

/-! ## A missing current version -/

/-- The message of the missing version error: the format with the version
string and the kind name in the place of its two verbs. -/
theorem errNoVersion_msg (c : Collab) (current name : GoString) :
    (errNoVersion c current name).msg =
      utf8 "version '" ++ current ++ utf8 "' of kind '" ++ name ++ utf8 "' does not exist" := by
  have h1 : utf8 "version '%s' of kind '%s' does not exist" =
      [118, 101, 114, 115, 105, 111, 110, 32, 39, 37, 115, 39, 32, 111, 102, 32, 107, 105, 110,
        100, 32, 39, 37, 115, 39, 32, 100, 111, 101, 115, 32, 110, 111, 116, 32, 101, 120, 105,
        115, 116] := by decide
  have h2 : utf8 "version '" = [118, 101, 114, 115, 105, 111, 110, 32, 39] := by decide
  have h3 : utf8 "' of kind '" = [39, 32, 111, 102, 32, 107, 105, 110, 100, 32, 39] := by decide
  have h4 : utf8 "' does not exist" =
      [39, 32, 100, 111, 101, 115, 32, 110, 111, 116, 32, 101, 120, 105, 115, 116] := by decide
  rw [h2, h3, h4]
  simp [errNoVersion, Sprintf, h1, doPrintf]

/-- C6. When `GenerateOnlyCurrent` is set and no version of the kind equals
its current-version marker, `Generate` returns an error and no files without
any run of the backend, and the message of the error is
`version '<current>' of kind '<name>' does not exist`, which contains both the
requested version string and the name of the kind. -/
theorem Generate_missing_current_version (c : Collab) (g : GoTypes) (kind : Kind)
    (honly : g.GenerateOnlyCurrent = true)
    (hmissing : ∀ ver ∈ kind.Versions, ver.Version ≠ kind.Properties.Current) :
    ∃ msg, Generate c g kind = (.error ⟨msg⟩, []) ∧
      msg = utf8 "version '" ++ kind.Properties.Current ++ utf8 "' of kind '" ++ kind.Name ++
        utf8 "' does not exist" ∧
      kind.Properties.Current <:+: msg ∧ kind.Name <:+: msg := by
  have hnone : kind.Version kind.Properties.Current = none := by
    unfold Kind.Version
    rw [List.find?_eq_none]
    intro ver hver
    simpa using hmissing ver hver
  refine ⟨(errNoVersion c kind.Properties.Current kind.Name).msg, ?_, errNoVersion_msg c _ _, ?_, ?_⟩
  · simp only [Generate, honly, if_true, hnone]
  · rw [errNoVersion_msg]
    exact ⟨utf8 "version '", utf8 "' of kind '" ++ kind.Name ++ utf8 "' does not exist", by simp⟩
  · rw [errNoVersion_msg]
    exact ⟨utf8 "version '" ++ kind.Properties.Current ++ utf8 "' of kind '",
      utf8 "' does not exist", by simp⟩

/-- C6 at the sample kind `Foo` with the current-version marker `v9`, which
none of its versions `v1`, `v2`, `v3` carries. -/
theorem Generate_missing_current_version_witness :
    ∃ msg, Generate sampleCollab (sampleGoTypes true 1 0 false) (sampleKind "v9") =
        (.error ⟨msg⟩, []) ∧
      msg = utf8 "version '" ++ (sampleKind "v9").Properties.Current ++ utf8 "' of kind '" ++
        (sampleKind "v9").Name ++ utf8 "' does not exist" ∧
      (sampleKind "v9").Properties.Current <:+: msg ∧ (sampleKind "v9").Name <:+: msg :=
  Generate_missing_current_version sampleCollab (sampleGoTypes true 1 0 false) (sampleKind "v9")
    rfl (by decide)


/-! ## The tree walk -/

/-- Go `int` arithmetic does not wrap within the 64-bit range. -/
theorem wrapInt_of_range (x : Int) (hlo : -2 ^ 63 ≤ x) (hhi : x < 2 ^ 63) : wrapInt x = x := by
  unfold wrapInt
  rw [Int.emod_eq_of_lt (by omega) (by omega)]
  omega

/-- The single-node emitter runs the backend once, whatever the outcome. -/
theorem GoTypesFromCUE_calls (c : Collab) (v : Value) (cfg : CUEGoConfig) (maxNamingDepth : Int) :
    (GoTypesFromCUE c v cfg maxNamingDepth).2 = [cueRequest v cfg maxNamingDepth] := by
  simp only [GoTypesFromCUE]
  generalize c.Run (cueRequest v cfg maxNamingDepth) = r
  cases r with
  | error err => rfl
  | ok files =>
    by_cases h : files.length ≠ 1
    · simp only [dif_pos h]
    · simp only [dif_neg h]

/-- The emitter branch of the walk runs the backend once, whatever the
outcome. -/
theorem emitAtDepth_calls (c : Collab) (g : GoTypes) (kv : KindVersion)
    (machineName packageName pathPrefix namePrefix : GoString) (v : Value) :
    (emitAtDepth c g kv machineName packageName pathPrefix namePrefix v).2 =
      [cueRequest v (depthConfig c g v kv packageName namePrefix) (depthNaming g v)] := by
  have h := GoTypesFromCUE_calls c v (depthConfig c g v kv packageName namePrefix) (depthNaming g v)
  unfold emitAtDepth
  revert h
  rcases GoTypesFromCUE c v (depthConfig c g v kv packageName namePrefix) (depthNaming g v) with
    ⟨r, calls⟩
  intro h
  cases r <;> exact h

/-- At the target depth the walk is the emitter, for either kind of node. -/
theorem generateFilesAtDepth_at_depth (c : Collab) (g : GoTypes) (kv : KindVersion)
    (machineName packageName pathPrefix namePrefix : GoString) (v : Value) :
    generateFilesAtDepth c g kv machineName packageName pathPrefix namePrefix v g.Depth =
      emitAtDepth c g kv machineName packageName pathPrefix namePrefix v := by
  cases v <;> simp [generateFilesAtDepth]

/-- Above the target depth the walk iterates the fields of the node. -/
theorem generateFilesAtDepth_above (c : Collab) (g : GoTypes) (kv : KindVersion)
    (machineName packageName pathPrefix namePrefix : GoString) (v : Value) (currDepth : Int)
    (h : currDepth ≠ g.Depth) :
    generateFilesAtDepth c g kv machineName packageName pathPrefix namePrefix v currDepth =
      match v.Fields with
      | .ok fields =>
        fieldsLoop c g kv machineName packageName pathPrefix namePrefix fields currDepth [] []
      | .error err => (.error err, []) := by
  cases v <;> simp [generateFilesAtDepth, h, Value.Fields]

/-- When the emitter succeeds on a node, the emitter branch returns the
artifact of that node. -/
theorem emitAtDepth_ok (c : Collab) (g : GoTypes) (kv : KindVersion)
    (machineName packageName pathPrefix namePrefix : GoString) (v : Value) (goBytes : GoString)
    (h : (GoTypesFromCUE c v (depthConfig c g v kv packageName namePrefix) (depthNaming g v)).1 =
      .ok goBytes) :
    emitAtDepth c g kv machineName packageName pathPrefix namePrefix v =
      (.ok [depthArtifact c kv machineName pathPrefix v goBytes],
        [cueRequest v (depthConfig c g v kv packageName namePrefix) (depthNaming g v)]) := by
  have h2 := GoTypesFromCUE_calls c v (depthConfig c g v kv packageName namePrefix) (depthNaming g v)
  unfold emitAtDepth
  revert h h2
  rcases GoTypesFromCUE c v (depthConfig c g v kv packageName namePrefix) (depthNaming g v) with
    ⟨r, calls⟩
  intro h h2
  simp only at h h2
  subst h h2
  rfl

/-- The walk from a node `k` levels above the target depth, when no field
iteration and no emission below it fails: one artifact and one backend run per
node at depth `k` below it, in order. -/
theorem generateFilesAtDepth_ok (c : Collab) (g : GoTypes) (kv : KindVersion)
    (machineName packageName pathPrefix namePrefix : GoString) (out : Value → GoString)
    (hmax : g.Depth < 2 ^ 63) (k : Nat) :
    ∀ (v : Value) (currDepth : Int), 0 ≤ currDepth → currDepth + k = g.Depth →
      (∀ j < k, ∀ node ∈ nodesAtDepth j v, ∃ fields, node.Fields = .ok fields) →
      (∀ node ∈ nodesAtDepth k v,
        (GoTypesFromCUE c node (depthConfig c g node kv packageName namePrefix)
          (depthNaming g node)).1 = .ok (out node)) →
      generateFilesAtDepth c g kv machineName packageName pathPrefix namePrefix v currDepth =
        (.ok ((nodesAtDepth k v).map
            (fun node => depthArtifact c kv machineName pathPrefix node (out node))),
          (nodesAtDepth k v).map
            (fun node => cueRequest node (depthConfig c g node kv packageName namePrefix)
              (depthNaming g node))) := by
  induction k with
  | zero =>
    intro v currDepth _ hd _ hemit
    have hcd : currDepth = g.Depth := by simpa using hd
    subst hcd
    rw [generateFilesAtDepth_at_depth]
    simpa [nodesAtDepth] using emitAtDepth_ok c g kv machineName packageName pathPrefix namePrefix v
      (out v) (hemit v (by simp [nodesAtDepth]))
  | succ k ih =>
    intro v currDepth h0 hd hfields hemit
    have hne : currDepth ≠ g.Depth := by omega
    obtain ⟨fields, hfs⟩ := hfields 0 (Nat.succ_pos k) v (by simp [nodesAtDepth])
    rw [generateFilesAtDepth_above _ _ _ _ _ _ _ _ _ hne, hfs]
    have hwrap : wrapInt (currDepth + 1) = currDepth + 1 :=
      wrapInt_of_range _ (by omega) (by omega)
    have hchild : ∀ ch ∈ fields,
        generateFilesAtDepth c g kv machineName packageName pathPrefix namePrefix ch
            (wrapInt (currDepth + 1)) =
          (.ok ((nodesAtDepth k ch).map
              (fun node => depthArtifact c kv machineName pathPrefix node (out node))),
            (nodesAtDepth k ch).map
              (fun node => cueRequest node (depthConfig c g node kv packageName namePrefix)
                (depthNaming g node))) := by
      intro ch hch
      rw [hwrap]
      refine ih ch (currDepth + 1) (by omega) (by omega) (fun j hj node hnode => ?_)
        (fun node hnode => ?_)
      · refine hfields (j + 1) (by omega) node ?_
        simp only [nodesAtDepth, hfs, List.mem_flatMap]
        exact ⟨ch, hch, hnode⟩
      · refine hemit node ?_
        simp only [nodesAtDepth, hfs, List.mem_flatMap]
        exact ⟨ch, hch, hnode⟩
    have hloop : ∀ (rest : List Value) (files : List File) (calls : List CogRequest),
        (∀ ch ∈ rest, ch ∈ fields) →
        fieldsLoop c g kv machineName packageName pathPrefix namePrefix rest currDepth files calls =
          (.ok (files ++ (rest.flatMap (nodesAtDepth k)).map
              (fun node => depthArtifact c kv machineName pathPrefix node (out node))),
            calls ++ (rest.flatMap (nodesAtDepth k)).map
              (fun node => cueRequest node (depthConfig c g node kv packageName namePrefix)
                (depthNaming g node))) := by
      intro rest
      induction rest with
      | nil => intro files calls _; simp [fieldsLoop]
      | cons ch rest ihr =>
        intro files calls hsub
        rw [fieldsLoop, hchild ch (hsub ch (by simp))]
        simp only
        rw [ihr _ _ (fun x hx => hsub x (by simp [hx]))]
        simp [List.flatMap_cons, List.append_assoc]
    have := hloop fields [] [] (fun _ h => h)
    simpa [nodesAtDepth, hfs] using this


/-! ## Error propagation in the tree walk -/

/-- Steps run after collected files and runs give what they give from nothing,
behind what was collected. -/
theorem runVisits_shift (step : Visit → Traced (List File)) (visits : List Visit) :
    ∀ (files : List File) (calls : List CogRequest),
      runVisits step visits files calls =
        match runVisits step visits [] [] with
        | (.error err, made) => (.error err, calls ++ made)
        | (.ok f, made) => (.ok (files ++ f), calls ++ made) := by
  induction visits with
  | nil => intro files calls; simp [runVisits]
  | cons x rest ih =>
    intro files calls
    simp only [runVisits]
    rcases hx : step x with ⟨r, made⟩
    cases r with
    | error err => simp
    | ok f =>
      simp only [List.nil_append]
      rw [ih (files ++ f) (calls ++ made), ih f made]
      rcases runVisits step rest [] [] with ⟨r2, made2⟩
      cases r2 <;> simp [List.append_assoc]

/-- Two lists of steps in a row: the second runs only when the first ends
without error. -/
theorem runVisits_append (step : Visit → Traced (List File)) (l1 l2 : List Visit) :
    ∀ (files : List File) (calls : List CogRequest),
      runVisits step (l1 ++ l2) files calls =
        match runVisits step l1 files calls with
        | (.error err, made) => (.error err, made)
        | (.ok f, made) => runVisits step l2 f made := by
  induction l1 with
  | nil => intro files calls; simp [runVisits]
  | cons x rest ih =>
    intro files calls
    simp only [List.cons_append, runVisits]
    rcases step x with ⟨r, made⟩
    cases r with
    | error err => simp
    | ok f => simp only; exact ih _ _

/-- The walk from a node `k` levels above the target depth is the run of its
traversal, step by step. -/
theorem generateFilesAtDepth_eq_runVisits (c : Collab) (g : GoTypes) (kv : KindVersion)
    (machineName packageName pathPrefix namePrefix : GoString) (hmax : g.Depth < 2 ^ 63) (k : Nat) :
    ∀ (v : Value) (currDepth : Int), 0 ≤ currDepth → currDepth + k = g.Depth →
      generateFilesAtDepth c g kv machineName packageName pathPrefix namePrefix v currDepth =
        runVisits (walkStep c g kv machineName packageName pathPrefix namePrefix)
          (traversal k v) [] [] := by
  induction k with
  | zero =>
    intro v currDepth _ hd
    have hcd : currDepth = g.Depth := by simpa using hd
    subst hcd
    rw [generateFilesAtDepth_at_depth]
    simp only [traversal, runVisits, walkStep]
    rcases emitAtDepth c g kv machineName packageName pathPrefix namePrefix v with ⟨r, made⟩
    cases r <;> simp [runVisits]
  | succ k ih =>
    intro v currDepth h0 hd
    have hne : currDepth ≠ g.Depth := by omega
    rw [generateFilesAtDepth_above _ _ _ _ _ _ _ _ _ hne]
    have hwrap : wrapInt (currDepth + 1) = currDepth + 1 :=
      wrapInt_of_range _ (by omega) (by omega)
    cases hfs : v.Fields with
    | error err => simp [traversal, hfs, runVisits, walkStep]
    | ok fields =>
      have hloop : ∀ (rest : List Value) (files : List File) (calls : List CogRequest),
          fieldsLoop c g kv machineName packageName pathPrefix namePrefix rest currDepth files calls =
            runVisits (walkStep c g kv machineName packageName pathPrefix namePrefix)
              (rest.flatMap (traversal k)) files calls := by
        intro rest
        induction rest with
        | nil => intro files calls; simp [fieldsLoop, runVisits]
        | cons ch rest ihr =>
          intro files calls
          rw [fieldsLoop, hwrap, ih ch (currDepth + 1) (by omega) (by omega), List.flatMap_cons,
            runVisits_append, runVisits_shift _ _ files calls]
          rcases runVisits (walkStep c g kv machineName packageName pathPrefix namePrefix)
            (traversal k ch) [] [] with ⟨r, made⟩
          cases r with
          | error err => rfl
          | ok f => simp only; exact ihr _ _
      simp only [traversal, hfs, runVisits, walkStep, List.nil_append]
      exact hloop fields [] []

/-- A step fails in the walk exactly when it has a failure, with that error. -/
theorem walkStep_error_iff (c : Collab) (g : GoTypes) (kv : KindVersion)
    (machineName packageName pathPrefix namePrefix : GoString) (x : Visit) (err : GoError) :
    (walkStep c g kv machineName packageName pathPrefix namePrefix x).1 = .error err ↔
      visitFailure c g kv packageName namePrefix x = some err := by
  cases x with
  | iterate v =>
    simp only [walkStep, visitFailure]
    cases v.Fields <;> simp
  | emit v =>
    simp only [walkStep, visitFailure, emitAtDepth]
    rcases GoTypesFromCUE c v (depthConfig c g v kv packageName namePrefix) (depthNaming g v) with
      ⟨r, calls⟩
    cases r <;> simp

/-- The backend runs of a step in the walk. -/
theorem walkStep_calls (c : Collab) (g : GoTypes) (kv : KindVersion)
    (machineName packageName pathPrefix namePrefix : GoString) (x : Visit) :
    (walkStep c g kv machineName packageName pathPrefix namePrefix x).2 =
      visitCalls c g kv packageName namePrefix x := by
  cases x with
  | iterate v =>
    simp only [walkStep, visitCalls]
    cases v.Fields <;> rfl
  | emit v => exact emitAtDepth_calls c g kv machineName packageName pathPrefix namePrefix v

/-- A run of steps ends in an error exactly at its first failing step, with
the backend runs made up to and including that step; without a failing step
it ends without error. -/
theorem runVisits_outcome (step : Visit → Traced (List File)) (visits : List Visit) :
    ∀ (files : List File) (calls : List CogRequest),
      (∃ out, (runVisits step visits files calls).1 = .ok out ∧
        ∀ x ∈ visits, ∀ err, (step x).1 ≠ .error err) ∨
      (∃ err pre x post, runVisits step visits files calls =
          (.error err, calls ++ (pre ++ [x]).flatMap (fun y => (step y).2)) ∧
        visits = pre ++ x :: post ∧ (∀ y ∈ pre, ∀ e, (step y).1 ≠ .error e) ∧
        (step x).1 = .error err) := by
  induction visits with
  | nil =>
    intro files calls
    exact Or.inl ⟨files, rfl, fun x hx => absurd hx (List.not_mem_nil x)⟩
  | cons x rest ih =>
    intro files calls
    simp only [runVisits]
    rcases hx : step x with ⟨r, made⟩
    cases r with
    | error err =>
      refine Or.inr ⟨err, [], x, rest, ?_, rfl, fun y hy => absurd hy (List.not_mem_nil y), ?_⟩
      · simp [hx]
      · simp [hx]
    | ok f =>
      simp only
      rcases ih (files ++ f) (calls ++ made) with ⟨out, hout, hall⟩ | ⟨err, pre, y, post, hrun, hsplit, hpre, hy⟩
      · refine Or.inl ⟨out, hout, fun z hz e => ?_⟩
        rcases List.mem_cons.mp hz with rfl | hz
        · simp [hx]
        · exact hall z hz e
      · refine Or.inr ⟨err, x :: pre, y, post, ?_, by simp [hsplit], fun z hz e => ?_, hy⟩
        · rw [hrun]
          simp [hx, List.append_assoc]
        · rcases List.mem_cons.mp hz with rfl | hz
          · simp [hx]
          · exact hpre z hz e

/-- C2. For every schema tree `root` and target `Depth = N`, when no field
iteration fails on a node above depth `N` and the emitter fails on no node at
depth `N`, the walk started at the root with `currDepth = 0` returns exactly
one artifact per node at exactly depth `N` below the root, in depth-first
field order, each holding the bytes emitted for its node; so the number of
artifacts is the number of nodes at depth `N`, and a node without fields above
depth `N` has no node below it and adds no artifact and no error. -/
theorem generateFilesAtDepth_one_artifact_per_node (c : Collab) (g : GoTypes) (kv : KindVersion)
    (machineName packageName pathPrefix namePrefix : GoString) (root : Value) (N : Nat)
    (out : Value → GoString)
    (hdepth : g.Depth = N) (hmax : g.Depth < 2 ^ 63)
    (hfields : ∀ j < N, ∀ node ∈ nodesAtDepth j root, ∃ fields, node.Fields = .ok fields)
    (hemit : ∀ node ∈ nodesAtDepth N root,
      (GoTypesFromCUE c node (depthConfig c g node kv packageName namePrefix)
        (depthNaming g node)).1 = .ok (out node)) :
    (∃ files,
      (generateFilesAtDepth c g kv machineName packageName pathPrefix namePrefix root 0).1 =
        .ok files ∧
      files = (nodesAtDepth N root).map
        (fun node => depthArtifact c kv machineName pathPrefix node (out node)) ∧
      files.length = (nodesAtDepth N root).length) ∧
    (generateFilesAtDepth c g kv machineName packageName pathPrefix namePrefix root 0).2 =
      (nodesAtDepth N root).map
        (fun node => cueRequest node (depthConfig c g node kv packageName namePrefix)
          (depthNaming g node)) ∧
    (∀ (path : Path) (n : Nat), nodesAtDepth (n + 1) (Value.struct path []) = []) := by
  have h := generateFilesAtDepth_ok c g kv machineName packageName pathPrefix namePrefix out hmax N
    root 0 (le_refl 0) (by omega) hfields hemit
  refine ⟨⟨_, by rw [h], rfl, by simp⟩, by rw [h], fun path n => ?_⟩
  simp [nodesAtDepth, Value.Fields]

/-- C2 on the sample schema at `Depth = 2`: the two fields of `spec` give the
two artifacts, and `status`, which has no fields, gives none. -/
theorem generateFilesAtDepth_one_artifact_per_node_witness :
    ((∃ files,
      (generateFilesAtDepth sampleCollab (sampleGoTypes false 2 0 false) (sampleVersion "v1" true)
        (utf8 "foo") (utf8 "v1") (utf8 "v1") (utf8 "Foo") sampleSchema 0).1 = .ok files ∧
      files = (nodesAtDepth 2 sampleSchema).map
        (fun node => depthArtifact sampleCollab (sampleVersion "v1" true) (utf8 "foo") (utf8 "v1")
          node (exportField sampleCollab.upperRune
            (stringsJoin (fieldNameOf sampleCollab node (sampleVersion "v1" true)) []))) ∧
      files.length = (nodesAtDepth 2 sampleSchema).length) ∧
    (generateFilesAtDepth sampleCollab (sampleGoTypes false 2 0 false) (sampleVersion "v1" true)
        (utf8 "foo") (utf8 "v1") (utf8 "v1") (utf8 "Foo") sampleSchema 0).2 =
      (nodesAtDepth 2 sampleSchema).map
        (fun node => cueRequest node (depthConfig sampleCollab (sampleGoTypes false 2 0 false) node
          (sampleVersion "v1" true) (utf8 "v1") (utf8 "Foo"))
          (depthNaming (sampleGoTypes false 2 0 false) node)) ∧
    (∀ (path : Path) (n : Nat), nodesAtDepth (n + 1) (Value.struct path []) = [])) ∧
    (nodesAtDepth 2 sampleSchema).map Value.Path =
      [[sel "spec", sel "title"], [sel "spec", sel "count"]] :=
  ⟨generateFilesAtDepth_one_artifact_per_node sampleCollab (sampleGoTypes false 2 0 false)
    (sampleVersion "v1" true) (utf8 "foo") (utf8 "v1") (utf8 "v1") (utf8 "Foo") sampleSchema 2
    (fun node => exportField sampleCollab.upperRune
      (stringsJoin (fieldNameOf sampleCollab node (sampleVersion "v1" true)) []))
    rfl (by decide)
    (fun j hj node hnode => by
      interval_cases j
      · simp only [nodesAtDepth, List.mem_singleton] at hnode
        subst hnode
        exact ⟨_, rfl⟩
      · simp [nodesAtDepth, sampleSchema, Value.Fields] at hnode
        rcases hnode with rfl | rfl <;> exact ⟨_, rfl⟩)
    (fun node _ => rfl),
   by decide⟩

/-- C3. For every schema tree `root` and target `Depth = N`, the walk started
at the root with `currDepth = 0` returns an error, and with it no artifact
list, exactly when some step of the traversal fails: the field iteration of a
node above depth `N` or the emission of a node at depth `N`. The error is the
one of the first failing step in traversal order, and the backend was run for
the nodes at depth `N` up to and including that step and for none after it. -/
theorem generateFilesAtDepth_error_iff_first_failure (c : Collab) (g : GoTypes) (kv : KindVersion)
    (machineName packageName pathPrefix namePrefix : GoString) (root : Value) (N : Nat)
    (hdepth : g.Depth = N) (hmax : g.Depth < 2 ^ 63) :
    ((∃ err, (generateFilesAtDepth c g kv machineName packageName pathPrefix namePrefix root 0).1 =
        .error err) ↔
      ∃ x ∈ traversal N root, ∃ err, visitFailure c g kv packageName namePrefix x = some err) ∧
    (∀ err, (generateFilesAtDepth c g kv machineName packageName pathPrefix namePrefix root 0).1 =
        .error err →
      ∃ pre x post, traversal N root = pre ++ x :: post ∧
        (∀ y ∈ pre, visitFailure c g kv packageName namePrefix y = none) ∧
        visitFailure c g kv packageName namePrefix x = some err ∧
        (generateFilesAtDepth c g kv machineName packageName pathPrefix namePrefix root 0).2 =
          (pre ++ [x]).flatMap (visitCalls c g kv packageName namePrefix)) := by
  have hrun := generateFilesAtDepth_eq_runVisits c g kv machineName packageName pathPrefix
    namePrefix hmax N root 0 (le_refl 0) (by omega)
  have hcalls : (fun y => (walkStep c g kv machineName packageName pathPrefix namePrefix y).2) =
      visitCalls c g kv packageName namePrefix :=
    funext (walkStep_calls c g kv machineName packageName pathPrefix namePrefix)
  have hnone : ∀ y, (∀ e, (walkStep c g kv machineName packageName pathPrefix namePrefix y).1 ≠
      .error e) → visitFailure c g kv packageName namePrefix y = none := by
    intro y hy
    cases hf : visitFailure c g kv packageName namePrefix y with
    | none => rfl
    | some e => exact absurd ((walkStep_error_iff _ _ _ _ _ _ _ _ _).mpr hf) (hy e)
  rw [hrun]
  rcases runVisits_outcome (walkStep c g kv machineName packageName pathPrefix namePrefix)
    (traversal N root) [] [] with ⟨out, hout, hall⟩ | ⟨err, pre, x, post, hres, hsplit, hpre, hx⟩
  · refine ⟨⟨fun ⟨err, herr⟩ => ?_, fun ⟨x, hx, err, herr⟩ => ?_⟩, fun err herr => ?_⟩
    · rw [hout] at herr
      exact Except.noConfusion herr
    · exact absurd ((walkStep_error_iff _ _ _ _ _ _ _ _ _).mpr herr) (hall x hx err)
    · rw [hout] at herr
      exact Except.noConfusion herr
  · have hxf := (walkStep_error_iff _ _ _ _ _ _ _ _ _).mp hx
    refine ⟨⟨fun _ => ⟨x, by simp [hsplit], err, hxf⟩, fun _ => ⟨err, by rw [hres]⟩⟩,
      fun e he => ?_⟩
    rw [hres] at he
    simp only at he
    cases he
    refine ⟨pre, x, post, hsplit, fun y hy => hnone y (hpre y hy), hxf, ?_⟩
    rw [hres, hcalls]
    simp

/-- C3 on the sample schema with the field `status` that cannot be iterated,
at `Depth = 2`: the walk returns the error of `status`, after the backend runs
for the two fields of `spec` and before any run for `extra`. -/
theorem generateFilesAtDepth_error_iff_first_failure_witness :
    (((∃ err, (generateFilesAtDepth sampleCollab (sampleGoTypes false 2 0 false)
          (sampleVersion "v1" true) (utf8 "foo") (utf8 "v1") (utf8 "v1") (utf8 "Foo")
          sampleBrokenSchema 0).1 = .error err) ↔
        ∃ x ∈ traversal 2 sampleBrokenSchema, ∃ err,
          visitFailure sampleCollab (sampleGoTypes false 2 0 false) (sampleVersion "v1" true)
            (utf8 "v1") (utf8 "Foo") x = some err) ∧
      (∀ err, (generateFilesAtDepth sampleCollab (sampleGoTypes false 2 0 false)
          (sampleVersion "v1" true) (utf8 "foo") (utf8 "v1") (utf8 "v1") (utf8 "Foo")
          sampleBrokenSchema 0).1 = .error err →
        ∃ pre x post, traversal 2 sampleBrokenSchema = pre ++ x :: post ∧
          (∀ y ∈ pre, visitFailure sampleCollab (sampleGoTypes false 2 0 false)
            (sampleVersion "v1" true) (utf8 "v1") (utf8 "Foo") y = none) ∧
          visitFailure sampleCollab (sampleGoTypes false 2 0 false) (sampleVersion "v1" true)
            (utf8 "v1") (utf8 "Foo") x = some err ∧
          (generateFilesAtDepth sampleCollab (sampleGoTypes false 2 0 false)
            (sampleVersion "v1" true) (utf8 "foo") (utf8 "v1") (utf8 "v1") (utf8 "Foo")
            sampleBrokenSchema 0).2 =
            (pre ++ [x]).flatMap (visitCalls sampleCollab (sampleGoTypes false 2 0 false)
              (sampleVersion "v1" true) (utf8 "v1") (utf8 "Foo")))) ∧
    (generateFilesAtDepth sampleCollab (sampleGoTypes false 2 0 false) (sampleVersion "v1" true)
      (utf8 "foo") (utf8 "v1") (utf8 "v1") (utf8 "Foo") sampleBrokenSchema 0).1 =
      .error ⟨utf8 "cannot use value as struct"⟩ ∧
    ((generateFilesAtDepth sampleCollab (sampleGoTypes false 2 0 false) (sampleVersion "v1" true)
      (utf8 "foo") (utf8 "v1") (utf8 "v1") (utf8 "Foo") sampleBrokenSchema 0).2.map
        (fun req => req.Value.Path)) = [[sel "spec", sel "title"], [sel "spec", sel "count"]] :=
  ⟨generateFilesAtDepth_error_iff_first_failure sampleCollab (sampleGoTypes false 2 0 false)
    (sampleVersion "v1" true) (utf8 "foo") (utf8 "v1") (utf8 "v1") (utf8 "Foo")
    sampleBrokenSchema 2 rfl (by decide), rfl, by decide⟩

/-! ## Generate -/

/-- The version loop in whole-schema mode with a backend that returns one
file for every enabled version: one artifact and one backend run per enabled
version, in order. -/
theorem versionsLoop_whole_schema (c : Collab) (g : GoTypes) (kind : Kind)
    (out : KindVersion → File) (hdepth : ¬ g.Depth > 0) (rest : List KindVersion) :
    ∀ (files : List File) (calls : List CogRequest),
      (∀ ver ∈ rest, ver.GoEnabled = true →
        c.Run (schemaRequest g ver kind.Name (c.ToPackageName ver.Version)) = .ok [out ver]) →
      versionsLoop c g kind rest files calls =
        (.ok (files ++ (rest.filter (fun ver => ver.GoEnabled)).map (fun ver =>
            { Data := (out ver).Data
              RelativePath := schemaRelativePath c kind.Properties.MachineName
                (c.GetGeneratedPath g.GroupByKind kind ver.Version)
              From := [JennyName] })),
          calls ++ (rest.filter (fun ver => ver.GoEnabled)).map (fun ver =>
            schemaRequest g ver kind.Name (c.ToPackageName ver.Version))) := by
  induction rest with
  | nil => intro files calls _; simp [versionsLoop]
  | cons ver rest ih =>
    intro files calls hrun
    by_cases hen : ver.GoEnabled = true
    · have hgen : generateFiles c g ver kind.Name kind.Properties.MachineName
          (c.ToPackageName ver.Version) (c.GetGeneratedPath g.GroupByKind kind ver.Version) =
          (.ok [{ Data := (out ver).Data
                  RelativePath := schemaRelativePath c kind.Properties.MachineName
                    (c.GetGeneratedPath g.GroupByKind kind ver.Version)
                  From := [JennyName] }],
            [schemaRequest g ver kind.Name (c.ToPackageName ver.Version)]) := by
        simp [generateFiles, hdepth, hrun ver (by simp) hen]
      rw [versionsLoop]
      simp only [hen, Bool.not_true, Bool.false_eq_true, if_false, hgen]
      rw [ih _ _ (fun v hv => hrun v (by simp [hv]))]
      simp [List.filter_cons, hen, List.append_assoc]
    · have hoff : ver.GoEnabled = false := by simpa using hen
      rw [versionsLoop]
      simp only [hoff, Bool.not_false, if_true]
      rw [ih _ _ (fun v hv => hrun v (by simp [hv]))]
      simp [List.filter_cons, hoff]

/-- C5. With `Depth = 0`, `GenerateOnlyCurrent = false` and a backend that
returns exactly one file for every Kind Version whose Go codegen is enabled,
`Generate` returns exactly one artifact per enabled version and none for a
disabled one, in the order of the versions of the kind. The path of an
artifact is built from the machine name of the kind and the generated path of
the version alone: no field path enters it. -/
theorem Generate_whole_schema_one_artifact_per_enabled_version (c : Collab) (g : GoTypes)
    (kind : Kind) (out : KindVersion → File)
    (hdepth : g.Depth = 0) (honly : g.GenerateOnlyCurrent = false)
    (hrun : ∀ ver ∈ kind.Versions, ver.GoEnabled = true →
      c.Run (schemaRequest g ver kind.Name (c.ToPackageName ver.Version)) = .ok [out ver]) :
    ∃ files, (Generate c g kind).1 = .ok files ∧
      files = (kind.Versions.filter (fun ver => ver.GoEnabled)).map (fun ver =>
        { Data := (out ver).Data
          RelativePath := schemaRelativePath c kind.Properties.MachineName
            (c.GetGeneratedPath g.GroupByKind kind ver.Version)
          From := [JennyName] }) ∧
      files.length = (kind.Versions.filter (fun ver => ver.GoEnabled)).length := by
  have h := versionsLoop_whole_schema c g kind out (by omega) kind.Versions [] [] hrun
  refine ⟨_, ?_, rfl, by simp⟩
  simp only [Generate, honly, Bool.false_eq_true, if_false, h, List.nil_append]

/-- C5 on the sample kind `Foo`: the versions `v1` and `v3` give one artifact
each, the disabled `v2` none, at the paths `v1/foo_gen.go` and
`v3/foo_gen.go`. -/
theorem Generate_whole_schema_one_artifact_per_enabled_version_witness :
    (∃ files, (Generate sampleCollab (sampleGoTypes false 0 0 false) (sampleKind "v1")).1 =
        .ok files ∧
      files = ((sampleKind "v1").Versions.filter (fun ver => ver.GoEnabled)).map (fun ver =>
        { Data := utf8 "Foo"
          RelativePath := schemaRelativePath sampleCollab (sampleKind "v1").Properties.MachineName
            (sampleCollab.GetGeneratedPath false (sampleKind "v1") ver.Version)
          From := [JennyName] }) ∧
      files.length = ((sampleKind "v1").Versions.filter (fun ver => ver.GoEnabled)).length) ∧
    ((sampleKind "v1").Versions.filter (fun ver => ver.GoEnabled)).map (fun ver =>
        schemaRelativePath sampleCollab (sampleKind "v1").Properties.MachineName
          (sampleCollab.GetGeneratedPath false (sampleKind "v1") ver.Version)) =
      [utf8 "v1/foo_gen.go", utf8 "v3/foo_gen.go"] :=
  ⟨Generate_whole_schema_one_artifact_per_enabled_version sampleCollab
    (sampleGoTypes false 0 0 false) (sampleKind "v1")
    (fun _ => { RelativePath := utf8 "types_gen.go", Data := utf8 "Foo", From := [] })
    rfl rfl (fun _ _ _ => rfl), by decide⟩

/-! ## The name prefix -/

/-- Every backend run of a run of steps is one collected before or one of a
step of the list. -/
theorem runVisits_calls_mem (step : Visit → Traced (List File)) (visits : List Visit) :
    ∀ (files : List File) (calls : List CogRequest),
      ∀ req ∈ (runVisits step visits files calls).2,
        req ∈ calls ∨ ∃ x ∈ visits, req ∈ (step x).2 := by
  induction visits with
  | nil => intro files calls req hreq; exact Or.inl hreq
  | cons x rest ih =>
    intro files calls req hreq
    simp only [runVisits] at hreq
    rcases hx : step x with ⟨r, made⟩
    rw [hx] at hreq
    cases r with
    | error err =>
      simp only [List.mem_append] at hreq
      rcases hreq with h | h
      · exact Or.inl h
      · exact Or.inr ⟨x, by simp, by rw [hx]; exact h⟩
    | ok f =>
      simp only at hreq
      rcases ih _ _ req hreq with h | ⟨y, hy, hreqy⟩
      · rcases List.mem_append.mp h with h | h
        · exact Or.inl h
        · exact Or.inr ⟨x, by simp, by rw [hx]; exact h⟩
      · exact Or.inr ⟨y, by simp [hy], hreqy⟩

/-- Every backend run of the walk carries the name prefix the walk was given. -/
theorem generateFilesAtDepth_name_prefix (c : Collab) (g : GoTypes) (kv : KindVersion)
    (machineName packageName pathPrefix namePrefix : GoString) (root : Value)
    (hdepth : 0 ≤ g.Depth) (hmax : g.Depth < 2 ^ 63) :
    ∀ req ∈ (generateFilesAtDepth c g kv machineName packageName pathPrefix namePrefix root 0).2,
      req.NamePrefix = some namePrefix := by
  intro req hreq
  rw [generateFilesAtDepth_eq_runVisits c g kv machineName packageName pathPrefix namePrefix hmax
    g.Depth.toNat root 0 (le_refl 0) (by omega)] at hreq
  rcases runVisits_calls_mem _ _ _ _ req hreq with h | ⟨x, _, hx⟩
  · exact absurd h (List.not_mem_nil req)
  · rw [walkStep_calls] at hx
    cases x with
    | iterate v => exact absurd hx (List.not_mem_nil req)
    | emit v =>
      simp only [visitCalls, List.mem_singleton] at hx
      subst hx
      rfl

/-- Every backend run of the version loop is one collected before or carries
the name prefix of depth-targeted mode. -/
theorem versionsLoop_name_prefix (c : Collab) (g : GoTypes) (kind : Kind)
    (hdepth : 0 < g.Depth) (hmax : g.Depth < 2 ^ 63) (rest : List KindVersion) :
    ∀ (files : List File) (calls : List CogRequest),
      ∀ req ∈ (versionsLoop c g kind rest files calls).2,
        req ∈ calls ∨
          req.NamePrefix = some (if g.GroupByKind then [] else exportField c.upperRune kind.Name) := by
  induction rest with
  | nil => intro files calls req hreq; exact Or.inl hreq
  | cons ver rest ih =>
    intro files calls req hreq
    rw [versionsLoop] at hreq
    by_cases hen : ver.GoEnabled = true
    · simp only [hen, Bool.not_true, Bool.false_eq_true, if_false] at hreq
      have hgen : ∀ r ∈ (generateFiles c g ver kind.Name kind.Properties.MachineName
          (c.ToPackageName ver.Version) (c.GetGeneratedPath g.GroupByKind kind ver.Version)).2,
          r.NamePrefix = some (if g.GroupByKind then [] else exportField c.upperRune kind.Name) := by
        intro r hr
        simp only [generateFiles, hdepth, if_true] at hr
        have := generateFilesAtDepth_name_prefix c g ver _ _ _ _ _ (by omega) hmax r hr
        rw [this]
        cases g.GroupByKind <;> rfl
      revert hreq hgen
      rcases generateFiles c g ver kind.Name kind.Properties.MachineName
        (c.ToPackageName ver.Version) (c.GetGeneratedPath g.GroupByKind kind ver.Version) with
        ⟨r, made⟩
      intro hreq hgen
      cases r with
      | error err =>
        rcases List.mem_append.mp hreq with h | h
        · exact Or.inl h
        · exact Or.inr (hgen req h)
      | ok f =>
        rcases ih _ _ req hreq with h | h
        · rcases List.mem_append.mp h with h | h
          · exact Or.inl h
          · exact Or.inr (hgen req h)
        · exact Or.inr h
    · have hoff : ver.GoEnabled = false := by simpa using hen
      simp only [hoff, Bool.not_false, if_true] at hreq
      exact ih _ _ req hreq

/-- C8. For every kind and every `Depth > 0`, every run of the single-node
emitter that `Generate` makes is handed as name prefix the exported kind name
`exportField(kind.Name())` when `GroupByKind` is false and the empty string
when `GroupByKind` is true. -/
theorem Generate_name_prefix_by_grouping (c : Collab) (g : GoTypes) (kind : Kind)
    (hdepth : 0 < g.Depth) (hmax : g.Depth < 2 ^ 63) :
    ∀ req ∈ (Generate c g kind).2,
      req.NamePrefix = some (if g.GroupByKind then [] else exportField c.upperRune kind.Name) := by
  intro req hreq
  unfold Generate at hreq
  by_cases honly : g.GenerateOnlyCurrent = true
  · simp only [honly, if_true] at hreq
    cases hver : kind.Version kind.Properties.Current with
    | none =>
      rw [hver] at hreq
      exact absurd hreq (List.not_mem_nil req)
    | some ver =>
      rw [hver] at hreq
      simp only [generateFiles, hdepth, if_true] at hreq
      have := generateFilesAtDepth_name_prefix c g ver _ _ _ _ _ (by omega) hmax req hreq
      rw [this]
      cases g.GroupByKind <;> rfl
  · have hoff : g.GenerateOnlyCurrent = false := by simpa using honly
    simp only [hoff, Bool.false_eq_true, if_false] at hreq
    rcases versionsLoop_name_prefix c g kind hdepth hmax _ _ _ req hreq with h | h
    · exact absurd h (List.not_mem_nil req)
    · exact h

/-- C8 on the sample kind `Foo` at `Depth = 1`: without grouping by kind the
four emitter runs (two fields for each of the two enabled versions) carry the
prefix `Foo`. -/
theorem Generate_name_prefix_by_grouping_witness :
    (∀ req ∈ (Generate sampleCollab (sampleGoTypes false 1 0 false) (sampleKind "v1")).2,
      req.NamePrefix = some (if (sampleGoTypes false 1 0 false).GroupByKind then []
        else exportField sampleCollab.upperRune (sampleKind "v1").Name)) ∧
    (Generate sampleCollab (sampleGoTypes false 1 0 false) (sampleKind "v1")).2.map
        CogRequest.NamePrefix =
      [some (utf8 "Foo"), some (utf8 "Foo"), some (utf8 "Foo"), some (utf8 "Foo")] ∧
    (Generate sampleCollab (sampleGoTypes false 1 0 true) (sampleKind "v1")).2.map
        CogRequest.NamePrefix = [some [], some [], some [], some []] :=
  ⟨Generate_name_prefix_by_grouping sampleCollab (sampleGoTypes false 1 0 false) (sampleKind "v1")
    (by decide) (by decide), by decide, by decide⟩

/-! ## The naming depth -/

/-- The name resolved for a definition path that extends the path of the
emitted node, when `SelEq` holds between every selector and itself: a positive
`maxNamingDepth` drops that many selectors, at most the whole path of the
node, and a `maxNamingDepth` of zero or below drops the whole path of the
node. -/
theorem nameFunc_on_extension (c : Collab) (hrefl : ∀ s, c.SelEq s s = true) (v : Value)
    (maxNamingDepth : Int) (s : Path) :
    nameFunc c v maxNamingDepth (v.Path ++ s) =
      stringsTrim (c.pathString ((v.Path ++ s).drop
        (if 0 < maxNamingDepth then min maxNamingDepth.toNat v.Path.length else v.Path.length)))
        (utf8 "?#") := by
  obtain ⟨i, hi, hmaxi, hname⟩ := nameFunc_largest_droppable c v maxNamingDepth (v.Path ++ s)
  rw [hname]
  have hagree : ∀ t, t ≤ v.Path.length → AgreeUpTo c (v.Path ++ s) v.Path t := by
    intro t ht j hd hr hj
    have : (v.Path ++ s).get ⟨j, hd⟩ = v.Path.get ⟨j, hr⟩ := by
      simp only [List.get_eq_getElem]
      exact List.getElem_append_left hr
    rw [this]
    exact hrefl _
  by_cases hm : 0 < maxNamingDepth
  · simp only [hm, if_true]
    have htarget : Droppable c (v.Path ++ s) v.Path maxNamingDepth
        (min maxNamingDepth.toNat v.Path.length) := by
      refine ⟨?_, Nat.min_le_right _ _, hagree _ (Nat.min_le_right _ _), fun _ => ?_⟩
      · simp only [List.length_append]
        have := Nat.min_le_right maxNamingDepth.toNat v.Path.length
        omega
      · have := Nat.min_le_left maxNamingDepth.toNat v.Path.length
        omega
    have h1 := hmaxi _ htarget
    have h2 := hi.2.1
    have h3 := hi.2.2.2 hm
    have : i = min maxNamingDepth.toNat v.Path.length := by
      apply Nat.le_antisymm _ h1
      apply Nat.le_min.mpr
      exact ⟨by omega, h2⟩
    rw [this]
  · simp only [hm, if_false]
    have htarget : Droppable c (v.Path ++ s) v.Path maxNamingDepth v.Path.length :=
      ⟨by simp, le_refl _, hagree _ (le_refl _), fun h => absurd h hm⟩
    have h1 := hmaxi _ htarget
    have h2 := hi.2.1
    have : i = v.Path.length := Nat.le_antisymm h2 h1
    rw [this]

/-- C9 (the code at the failing input). For `Depth > NamingDepth >= 0`, a node
`v` with path `p` is emitted with `maxNamingDepth = len(p) - (Depth -
NamingDepth)`. When that number is positive, the name of a definition path
`p ++ s` is the trimmed rendering without the first `len(p) - (Depth -
NamingDepth)` selectors, so the last `Depth - NamingDepth` selectors of `p`
stay as a prefix. When it is zero (or below), the closure takes it for "no
bound" and drops the whole of `p`: for the sample schema rooted at the empty
path, `Depth = 1` and `NamingDepth = 0`, the node `spec` is emitted with
`maxNamingDepth = 0` and the definition path `spec.title` resolves to `title`,
while dropping nothing gives `spec.title`. -/
theorem depthNaming_zero_drops_whole_path :
    (∀ (c : Collab) (g : GoTypes) (v : Value) (s : Path), (∀ x, c.SelEq x x = true) →
      0 ≤ g.NamingDepth → g.NamingDepth < g.Depth → g.Depth < 2 ^ 63 →
      (v.Path.length : Int) < 2 ^ 63 →
      depthNaming g v = (v.Path.length : Int) - (g.Depth - g.NamingDepth) ∧
      (0 < depthNaming g v →
        nameFunc c v (depthNaming g v) (v.Path ++ s) =
          stringsTrim (c.pathString ((v.Path ++ s).drop
            ((v.Path.length : Int) - (g.Depth - g.NamingDepth)).toNat)) (utf8 "?#")) ∧
      (depthNaming g v ≤ 0 →
        nameFunc c v (depthNaming g v) (v.Path ++ s) =
          stringsTrim (c.pathString s) (utf8 "?#"))) ∧
    (Generate sampleCollab (sampleGoTypes false 1 0 false) (sampleKind "v1")).2.map
        (fun req => req.NameFunc.map (fun env => (env.v.Path, env.maxNamingDepth))) =
      [some ([sel "spec"], 0), some ([sel "status"], 0),
        some ([sel "spec"], 0), some ([sel "status"], 0)] ∧
    depthNaming (sampleGoTypes false 1 0 false) sampleSpec = 0 ∧
    nameFunc sampleCollab sampleSpec 0 [sel "spec", sel "title"] = utf8 "title" ∧
    stringsTrim (sampleCollab.pathString ([sel "spec", sel "title"].drop 0)) (utf8 "?#") =
      utf8 "spec.title" := by
  refine ⟨fun c g v s hrefl hnd hlt hmax hlen => ?_, by decide, by decide, ?_, by decide⟩
  · have hinner : wrapInt (g.Depth - g.NamingDepth) = g.Depth - g.NamingDepth :=
      wrapInt_of_range _ (by omega) (by omega)
    have hm : depthNaming g v = (v.Path.length : Int) - (g.Depth - g.NamingDepth) := by
      unfold depthNaming
      rw [hinner]
      exact wrapInt_of_range _ (by omega) (by omega)
    refine ⟨hm, fun hpos => ?_, fun hle => ?_⟩
    · rw [nameFunc_on_extension c hrefl, if_pos hpos, ← hm]
      have : min (depthNaming g v).toNat v.Path.length = (depthNaming g v).toNat := by
        apply Nat.min_eq_left
        omega
      rw [this]
    · rw [nameFunc_on_extension c hrefl, if_neg (by omega)]
      simp
  · simp [nameFunc, nameFuncLoop, sampleCollab, sampleSpec, Value.Path, sel]
    decide

/-! ## File naming -/

/-- A path has at least one component. -/
theorem splitSlash_ne_nil (s : GoString) : splitSlash s ≠ [] := by
  cases s with
  | nil => simp [splitSlash]
  | cons c rest =>
    unfold splitSlash
    split_ifs
    · simp
    · cases splitSlash rest <;> simp

/-- The components of two paths joined by a slash. -/
theorem splitSlash_append_slash (p x : GoString) :
    splitSlash (p ++ 47 :: x) = splitSlash p ++ splitSlash x := by
  induction p with
  | nil => simp [splitSlash]
  | cons c p ih =>
    by_cases hc : c = 47
    · simp [splitSlash, hc, ih]
    · obtain ⟨h, t, hp⟩ := List.exists_cons_of_ne_nil (splitSlash_ne_nil p)
      rw [List.cons_append, splitSlash, if_neg hc, ih, hp, splitSlash, if_neg hc, hp]
      rfl

/-- A path without a slash is its only component. -/
theorem splitSlash_of_no_slash (x : GoString) (hx : 47 ∉ x) : splitSlash x = [x] := by
  induction x with
  | nil => rfl
  | cons c x ih =>
    have hc : c ≠ 47 := fun h => hx (by simp [h])
    have hx2 : 47 ∉ x := fun h => hx (by simp [h])
    simp [splitSlash, hc, ih hx2]

/-- The bytes of a component are bytes of the path. -/
theorem mem_of_mem_splitSlash (s : GoString) :
    ∀ comp ∈ splitSlash s, ∀ b ∈ comp, b ∈ s := by
  induction s with
  | nil => intro comp hcomp b hb; simp [splitSlash] at hcomp; subst hcomp; exact hb
  | cons c s ih =>
    intro comp hcomp b hb
    by_cases hc : c = 47
    · simp only [splitSlash, hc, if_true, List.mem_cons] at hcomp
      rcases hcomp with rfl | hcomp
      · exact absurd hb (List.not_mem_nil b)
      · exact List.mem_cons_of_mem _ (ih comp hcomp b hb)
    · simp only [splitSlash, hc, if_false] at hcomp
      cases hs : splitSlash s with
      | nil => exact absurd hs (splitSlash_ne_nil s)
      | cons h t =>
        rw [hs] at hcomp ih
        rcases List.mem_cons.mp hcomp with rfl | hcomp
        · rcases List.mem_cons.mp hb with rfl | hb
          · simp
          · exact List.mem_cons_of_mem _ (ih h (by simp) b hb)
        · exact List.mem_cons_of_mem _ (ih comp (by simp [hcomp]) b hb)

/-- The components `path.Clean` keeps are components of the path. -/
theorem mem_foldl_cleanStep (rooted : Bool) (comps : List GoString) :
    ∀ (out : List GoString), ∀ e ∈ comps.foldl (cleanStep rooted) out, e ∈ out ∨ e ∈ comps := by
  induction comps with
  | nil => intro out e he; exact Or.inl he
  | cons comp comps ih =>
    intro out e he
    rw [List.foldl_cons] at he
    rcases ih _ e he with h | h
    · have hstep : e ∈ out ∨ e = comp := by
        unfold cleanStep at h
        by_cases h1 : comp = [] ∨ comp = [46]
        · rw [if_pos h1] at h
          exact Or.inl h
        · rw [if_neg h1] at h
          by_cases h2 : comp = [46, 46]
          · rw [if_pos h2] at h
            cases out with
            | nil =>
              simp only at h
              by_cases hr : rooted = true
              · rw [if_pos hr] at h
                exact Or.inl h
              · rw [if_neg hr] at h
                exact Or.inr (List.mem_singleton.mp h)
            | cons last before =>
              simp only at h
              by_cases hl : last = [46, 46]
              · rw [if_pos hl] at h
                rcases List.mem_cons.mp h with h | h
                · exact Or.inr h
                · exact Or.inl h
              · rw [if_neg hl] at h
                exact Or.inl (List.mem_cons_of_mem _ h)
          · rw [if_neg h2] at h
            rcases List.mem_cons.mp h with h | h
            · exact Or.inr h
            · exact Or.inl h
      rcases hstep with h | h
      · exact Or.inl h
      · exact Or.inr (by simp [h])
    · exact Or.inr (List.mem_cons_of_mem _ h)

/-- Joining a list of at least two elements: the first element, the
separator, and the rest joined. -/
theorem stringsJoin_cons_cons (a b : GoString) (l : List GoString) (sep : GoString) :
    stringsJoin (a :: b :: l) sep = a ++ sep ++ stringsJoin (b :: l) sep := by
  simp [stringsJoin, List.intercalate, List.intersperse]

/-- Joining with one more element at the end. -/
theorem stringsJoin_append_singleton (l : List GoString) (x sep : GoString) :
    stringsJoin (l ++ [x]) sep = if l = [] then x else stringsJoin l sep ++ sep ++ x := by
  induction l with
  | nil => simp [stringsJoin, List.intercalate]
  | cons a l ih =>
    cases l with
    | nil => simp [stringsJoin, List.intercalate]
    | cons b l =>
      have ih2 : stringsJoin (b :: (l ++ [x])) sep = stringsJoin (b :: l) sep ++ sep ++ x := by
        simpa using ih
      rw [if_neg (by simp)]
      show stringsJoin (a :: b :: (l ++ [x])) sep = _
      rw [stringsJoin_cons_cons, ih2, stringsJoin_cons_cons]
      simp [List.append_assoc]

/-- The bytes of a joined string are bytes of the separator or of an element. -/
theorem mem_stringsJoin (l : List GoString) (sep : GoString) :
    ∀ b ∈ stringsJoin l sep, b ∈ sep ∨ ∃ e ∈ l, b ∈ e := by
  induction l with
  | nil => intro b hb; simp [stringsJoin, List.intercalate] at hb
  | cons a l ih =>
    intro b hb
    cases l with
    | nil =>
      have : stringsJoin [a] sep = a := by simp [stringsJoin, List.intercalate]
      rw [this] at hb
      exact Or.inr ⟨a, by simp, hb⟩
    | cons a2 l =>
      rw [stringsJoin_cons_cons] at hb
      rcases List.mem_append.mp hb with h | h
      · rcases List.mem_append.mp h with h | h
        · exact Or.inr ⟨a, by simp, h⟩
        · exact Or.inl h
      · rcases ih b h with h | ⟨e, he, hbe⟩
        · exact Or.inl h
        · exact Or.inr ⟨e, List.mem_cons_of_mem _ he, hbe⟩

/-- Joining a path prefix with a file name that is a single path component
other than `.` and `..`: the directory part of the prefix, then the file
name as it is. -/
theorem pathJoin_file (p x : GoString) (hne : x ≠ []) (hslash : 47 ∉ x) (hdot : x ≠ [46])
    (hdotdot : x ≠ [46, 46]) : pathJoin [p, x] = joinDir p ++ x := by
  have hlen : 0 < x.length := List.length_pos.mpr hne
  have hsum : ¬ ([p, x].map List.length).sum = 0 := by
    simp only [List.map_cons, List.map_nil, List.sum_cons, List.sum_nil]
    omega
  have hstep : ∀ (rooted : Bool) (out : List GoString), cleanStep rooted out x = x :: out := by
    intro rooted out
    simp [cleanStep, hne, hdot, hdotdot]
  unfold pathJoin
  rw [if_neg hsum]
  by_cases hp : p = []
  · subst hp
    have hjoin : joinLoop [[], x] [] = x := by simp [joinLoop, hne]
    have hhead : ¬ x.head? = some 47 := by
      intro h
      cases x with
      | nil => exact hne rfl
      | cons c x =>
        simp only [List.head?_cons, Option.some.injEq] at h
        exact hslash (by simp [h])
    rw [hjoin]
    simp [pathClean, hne, hhead, splitSlash_of_no_slash x hslash, hstep, stringsJoin,
      List.intercalate, joinDir]
  · have hplen : 0 < p.length := List.length_pos.mpr hp
    have hjoin : joinLoop [p, x] [] = p ++ 47 :: x := by
      simp [joinLoop, hp, hplen, hne]
    have hhead : (p ++ 47 :: x).head? = p.head? := by
      cases p with
      | nil => exact absurd rfl hp
      | cons c p => rfl
    rw [hjoin]
    unfold pathClean joinDir
    rw [if_neg (by simp), if_neg hp]
    simp only [hhead, splitSlash_append_slash, splitSlash_of_no_slash x hslash, List.foldl_append,
      List.foldl_cons, List.foldl_nil, hstep, List.reverse_cons, stringsJoin_append_singleton]
    by_cases hout : (List.foldl (cleanStep (decide (p.head? = some 47))) [] (splitSlash p)).reverse = []
    · simp only [hout, if_true, List.append_nil]
      rw [if_neg]
      cases hr : decide (p.head? = some 47) <;> simp [hne]
    · simp only [hout, if_false]
      rw [if_neg]
      · simp [List.append_assoc]
      · cases hr : decide (p.head? = some 47) <;> simp [hne]

/-- The bytes of the directory part are slashes and bytes of the path prefix. -/
theorem mem_joinDir (p : GoString) : ∀ b ∈ joinDir p, b = 47 ∨ b ∈ p := by
  intro b hb
  unfold joinDir at hb
  by_cases hp : p = []
  · rw [if_pos hp] at hb
    exact absurd hb (List.not_mem_nil b)
  · rw [if_neg hp] at hb
    simp only [List.mem_append] at hb
    rcases hb with h | h
    · split_ifs at h
      · exact Or.inl (List.mem_singleton.mp h)
      · exact absurd h (List.not_mem_nil b)
    · split_ifs at h with hout
      · exact absurd h (List.not_mem_nil b)
      · rcases List.mem_append.mp h with h | h
        · rcases mem_stringsJoin _ _ b h with h | ⟨e, he, hbe⟩
          · exact Or.inl (List.mem_singleton.mp h)
          · rcases mem_foldl_cleanStep _ _ _ e (List.mem_reverse.mp he) with h2 | h2
            · exact absurd h2 (List.not_mem_nil e)
            · exact Or.inr (mem_of_mem_splitSlash p e h2 b hbe)
        · exact Or.inl (List.mem_singleton.mp h)

/-- A start of the format without a percent sign is copied as it is. -/
theorem doPrintf_plain (fmtOther : GoString → List GoString → Nat → GoString) (a : List GoString)
    (pre rest : GoString) (argNum : Nat) (hpre : 37 ∉ pre) :
    doPrintf fmtOther a (pre ++ rest) argNum = pre ++ doPrintf fmtOther a rest argNum := by
  induction pre with
  | nil => rfl
  | cons c pre ih =>
    have hc : c ≠ 37 := fun h => hpre (by simp [h])
    have hpre2 : 37 ∉ pre := fun h => hpre (by simp [h])
    have hstep : ∀ tail, doPrintf fmtOther a (c :: tail) argNum =
        c :: doPrintf fmtOther a tail argNum := by
      intro tail
      cases tail <;> simp [doPrintf, hc]
    rw [List.cons_append, hstep, ih hpre2]
    rfl

/-- The format of whole-schema mode behind a directory part without a percent
sign. -/
theorem Sprintf_schema_format (fmtOther : GoString → List GoString → Nat → GoString)
    (dir a : GoString) (hdir : 37 ∉ dir) :
    Sprintf fmtOther (dir ++ utf8 "%s_gen.go") [a] = dir ++ (a ++ utf8 "_gen.go") := by
  have h1 : utf8 "%s_gen.go" = [37, 115, 95, 103, 101, 110, 46, 103, 111] := by decide
  have h2 : utf8 "_gen.go" = [95, 103, 101, 110, 46, 103, 111] := by decide
  rw [Sprintf, doPrintf_plain _ _ _ _ _ hdir, h1, h2]
  simp [doPrintf]

/-- The format of depth-targeted mode behind a directory part without a
percent sign. -/
theorem Sprintf_depth_format (fmtOther : GoString → List GoString → Nat → GoString)
    (dir a b : GoString) (hdir : 37 ∉ dir) :
    Sprintf fmtOther (dir ++ utf8 "%s_%s_gen.go") [a, b] =
      dir ++ (a ++ utf8 "_" ++ b ++ utf8 "_gen.go") := by
  have h1 : utf8 "%s_%s_gen.go" = [37, 115, 95, 37, 115, 95, 103, 101, 110, 46, 103, 111] := by
    decide
  have h2 : utf8 "_gen.go" = [95, 103, 101, 110, 46, 103, 111] := by decide
  have h3 : utf8 "_" = [95] := by decide
  rw [Sprintf, doPrintf_plain _ _ _ _ _ hdir, h1, h2, h3]
  simp [doPrintf]

/-- A file name that ends in `_gen.go` and has no slash is a single path
component other than `.` and `..`. -/
theorem gen_file_component (stem : GoString) (hstem : 47 ∉ stem) :
    stem ++ utf8 "_gen.go" ≠ [] ∧ 47 ∉ stem ++ utf8 "_gen.go" ∧ stem ++ utf8 "_gen.go" ≠ [46] ∧
      stem ++ utf8 "_gen.go" ≠ [46, 46] := by
  have h2 : utf8 "_gen.go" = [95, 103, 101, 110, 46, 103, 111] := by decide
  have hlen : (stem ++ utf8 "_gen.go").length = stem.length + 7 := by
    rw [h2]
    simp
  refine ⟨fun h => ?_, fun h => ?_, fun h => ?_, fun h => ?_⟩
  · rw [h] at hlen
    simp at hlen
  · rcases List.mem_append.mp h with h | h
    · exact hstem h
    · rw [h2] at h
      simp at h
  · rw [h] at hlen
    simp at hlen
  · rw [h] at hlen
    simp at hlen

/-- The relative path of whole-schema mode is the path prefix joined with the
file name made of the lower-cased machine name. -/
theorem schemaRelativePath_eq (c : Collab) (machineName pathPrefix : GoString)
    (hp : 37 ∉ pathPrefix) (hm : 47 ∉ stringsToLower c.lowerRune machineName) :
    schemaRelativePath c machineName pathPrefix =
      pathJoin [pathPrefix, stringsToLower c.lowerRune machineName ++ utf8 "_gen.go"] := by
  have hdir : 37 ∉ joinDir pathPrefix := by
    intro h
    rcases mem_joinDir _ _ h with h | h
    · simp at h
    · exact hp h
  obtain ⟨f1, f2, f3, f4⟩ := gen_file_component _ hm
  have hfmt : pathJoin [pathPrefix, utf8 "%s_gen.go"] = joinDir pathPrefix ++ utf8 "%s_gen.go" :=
    pathJoin_file _ _ (by decide) (by decide) (by decide) (by decide)
  rw [schemaRelativePath, hfmt, Sprintf_schema_format _ _ _ hdir, pathJoin_file _ _ f1 f2 f3 f4]

/-- The relative path of depth-targeted mode is the path prefix joined with
the file name made of the lower-cased machine name and the field name. -/
theorem depthRelativePath_eq (c : Collab) (machineName pathPrefix : GoString)
    (fieldName : List GoString) (hp : 37 ∉ pathPrefix)
    (hm : 47 ∉ stringsToLower c.lowerRune machineName)
    (hf : 47 ∉ stringsJoin fieldName (utf8 "_")) :
    depthRelativePath c machineName pathPrefix fieldName =
      pathJoin [pathPrefix, stringsToLower c.lowerRune machineName ++ utf8 "_" ++
        stringsJoin fieldName (utf8 "_") ++ utf8 "_gen.go"] := by
  have hdir : 37 ∉ joinDir pathPrefix := by
    intro h
    rcases mem_joinDir _ _ h with h | h
    · simp at h
    · exact hp h
  have hstem : 47 ∉ stringsToLower c.lowerRune machineName ++ utf8 "_" ++
      stringsJoin fieldName (utf8 "_") := by
    intro h
    rcases List.mem_append.mp h with h | h
    · rcases List.mem_append.mp h with h | h
      · exact hm h
      · have h3 : utf8 "_" = [95] := by decide
        rw [h3] at h
        simp at h
    · exact hf h
  obtain ⟨f1, f2, f3, f4⟩ := gen_file_component _ hstem
  have hfmt : pathJoin [pathPrefix, utf8 "%s_%s_gen.go"] =
      joinDir pathPrefix ++ utf8 "%s_%s_gen.go" :=
    pathJoin_file _ _ (by decide) (by decide) (by decide) (by decide)
  rw [depthRelativePath, hfmt, Sprintf_depth_format _ _ _ _ hdir, pathJoin_file _ _ f1 f2 f3 f4]

/-- A machine name of ASCII bytes without an upper-case letter is its own
lower-case form. -/
theorem stringsToLower_of_lower (lowerRune : Nat → Nat) (s : GoString)
    (hs : ∀ b ∈ s, b < 0x80 ∧ ¬ (65 ≤ b ∧ b ≤ 90)) : stringsToLower lowerRune s = s := by
  have hall : s.all (fun c => decide (c < 0x80)) = true := by
    rw [List.all_eq_true]
    intro b hb
    simpa using (hs b hb).1
  unfold stringsToLower
  rw [if_pos hall]
  conv_rhs => rw [← List.map_id s]
  apply List.map_congr_left
  intro b hb
  rw [if_neg (hs b hb).2]
  rfl

/-- C7 (the code at the failing input). The joined path is the format of
`fmt.Sprintf`, so the path prefix is read as format text. For a path prefix
without a percent sign (and names without a slash) the relative path of the
artifact is the path prefix joined with `<machineName>_gen.go` in whole-schema
mode and with `<machineName>_<field path selectors joined with
underscore>_gen.go` for a node emitted in depth-targeted mode (`Depth > 0`),
for every machine name that is its own lower-case form, as every machine name
of ASCII bytes without an upper-case letter is. For the path prefix `a%%b` and
the machine name `foo` the code gives `a%b/foo_gen.go` and
`a%b/foo_spec_gen.go`, while the path prefix joined with the file name is
`a%%b/foo_gen.go` and `a%%b/foo_spec_gen.go`. -/
theorem relative_path_reads_prefix_as_format :
    (∀ (c : Collab) (g : GoTypes) (kv : KindVersion)
        (name machineName packageName pathPrefix : GoString),
      37 ∉ pathPrefix → 47 ∉ machineName →
      stringsToLower c.lowerRune machineName = machineName → g.Depth ≤ 0 →
      ∀ files, (generateFiles c g kv name machineName packageName pathPrefix).1 = .ok files →
        ∃ data, files =
          [{ Data := data
             RelativePath := pathJoin [pathPrefix, machineName ++ utf8 "_gen.go"]
             From := [JennyName] }]) ∧
    (∀ (c : Collab) (g : GoTypes) (kv : KindVersion)
        (machineName packageName pathPrefix namePrefix : GoString) (v : Value),
      37 ∉ pathPrefix → 47 ∉ machineName →
      stringsToLower c.lowerRune machineName = machineName →
      47 ∉ stringsJoin (fieldNameOf c v kv) (utf8 "_") → 0 < g.Depth →
      ∀ files,
        (generateFilesAtDepth c g kv machineName packageName pathPrefix namePrefix v g.Depth).1 =
          .ok files →
        ∃ data, files =
          [{ Data := data
             RelativePath := pathJoin [pathPrefix, machineName ++ utf8 "_" ++
               stringsJoin (fieldNameOf c v kv) (utf8 "_") ++ utf8 "_gen.go"]
             From := [JennyName] }]) ∧
    (∀ (lowerRune : Nat → Nat) (s : GoString), (∀ b ∈ s, b < 0x80 ∧ ¬ (65 ≤ b ∧ b ≤ 90)) →
      stringsToLower lowerRune s = s) ∧
    (∀ c : Collab, schemaRelativePath c (utf8 "foo") (utf8 "a%%b") = utf8 "a%b/foo_gen.go") ∧
    pathJoin [utf8 "a%%b", utf8 "foo" ++ utf8 "_gen.go"] = utf8 "a%%b/foo_gen.go" ∧
    (∀ c : Collab, depthRelativePath c (utf8 "foo") (utf8 "a%%b") [utf8 "spec"] =
      utf8 "a%b/foo_spec_gen.go") ∧
    pathJoin [utf8 "a%%b", utf8 "foo" ++ utf8 "_" ++ stringsJoin [utf8 "spec"] (utf8 "_") ++
      utf8 "_gen.go"] = utf8 "a%%b/foo_spec_gen.go" ∧
    (Generate sampleCollab (sampleGoTypes false 0 0 false) (sampleKindOfVersion "a%%b")).1 =
      .ok [{ Data := utf8 "Foo", RelativePath := utf8 "a%b/foo_gen.go", From := [JennyName] }] ∧
    (Generate sampleCollab (sampleGoTypes false 1 0 false) (sampleKindOfVersion "a%%b")).1 =
      .ok [{ Data := utf8 "Spec", RelativePath := utf8 "a%b/foo_spec_gen.go",
             From := [JennyName] },
           { Data := utf8 "Status", RelativePath := utf8 "a%b/foo_status_gen.go",
             From := [JennyName] }] ∧
    (Generate sampleCollab (sampleGoTypes false 0 0 false) (sampleKindOfVersion "v1")).1 =
      .ok [{ Data := utf8 "Foo", RelativePath := utf8 "v1/foo_gen.go", From := [JennyName] }] ∧
    (Generate sampleCollab (sampleGoTypes false 1 0 false) (sampleKindOfVersion "v1")).1 =
      .ok [{ Data := utf8 "Spec", RelativePath := utf8 "v1/foo_spec_gen.go",
             From := [JennyName] },
           { Data := utf8 "Status", RelativePath := utf8 "v1/foo_status_gen.go",
             From := [JennyName] }] := by
  have hfmt1 : pathJoin [utf8 "a%%b", utf8 "%s_gen.go"] =
      [97, 37, 37, 98, 47, 37, 115, 95, 103, 101, 110, 46, 103, 111] := by decide
  have hfmt2 : pathJoin [utf8 "a%%b", utf8 "%s_%s_gen.go"] =
      [97, 37, 37, 98, 47, 37, 115, 95, 37, 115, 95, 103, 101, 110, 46, 103, 111] := by decide
  have hfoo : ∀ c : Collab, stringsToLower c.lowerRune (utf8 "foo") = utf8 "foo" :=
    fun c => stringsToLower_of_lower _ _ (by decide)
  refine ⟨?_, ?_, stringsToLower_of_lower, fun c => ?_, by decide, fun c => ?_, by decide,
    ?_, ?_, ?_, ?_⟩
  · intro c g kv name machineName packageName pathPrefix hp hm hlow hdepth files hfiles
    have hm2 : 47 ∉ stringsToLower c.lowerRune machineName := by rw [hlow]; exact hm
    have hd : ¬ g.Depth > 0 := by omega
    simp only [generateFiles, hd, if_false] at hfiles
    cases hrun : c.Run (schemaRequest g kv name packageName) with
    | error err => simp [hrun] at hfiles
    | ok out =>
      rw [hrun] at hfiles
      simp only at hfiles
      by_cases hlen : out.length ≠ 1
      · rw [dif_pos hlen] at hfiles
        exact Except.noConfusion hfiles
      · rw [dif_neg hlen] at hfiles
        simp only [Except.ok.injEq] at hfiles
        rw [← hfiles, schemaRelativePath_eq c machineName pathPrefix hp hm2, hlow]
        exact ⟨_, rfl⟩
  · intro c g kv machineName packageName pathPrefix namePrefix v hp hm hlow hf _ files hfiles
    have hm2 : 47 ∉ stringsToLower c.lowerRune machineName := by rw [hlow]; exact hm
    rw [generateFilesAtDepth_at_depth] at hfiles
    unfold emitAtDepth at hfiles
    revert hfiles
    rcases GoTypesFromCUE c v (depthConfig c g v kv packageName namePrefix) (depthNaming g v) with
      ⟨r, calls⟩
    intro hfiles
    cases r with
    | error err => exact Except.noConfusion hfiles
    | ok goBytes =>
      simp only [Except.ok.injEq] at hfiles
      rw [← hfiles, depthRelativePath_eq c machineName pathPrefix _ hp hm2 hf, hlow]
      exact ⟨_, rfl⟩
  · have h : utf8 "foo" = [102, 111, 111] := by decide
    have h2 : utf8 "a%b/foo_gen.go" =
        [97, 37, 98, 47, 102, 111, 111, 95, 103, 101, 110, 46, 103, 111] := by decide
    rw [schemaRelativePath, hfmt1, hfoo c, h, h2]
    simp [Sprintf, doPrintf]
  · have h : utf8 "foo" = [102, 111, 111] := by decide
    have h2 : utf8 "a%b/foo_spec_gen.go" =
        [97, 37, 98, 47, 102, 111, 111, 95, 115, 112, 101, 99, 95, 103, 101, 110, 46, 103, 111] := by
      decide
    have h3 : stringsJoin [utf8 "spec"] (utf8 "_") = [115, 112, 101, 99] := by decide
    rw [depthRelativePath, hfmt2, hfoo c, h, h2, h3]
    simp [Sprintf, doPrintf]
  · have h : schemaRelativePath sampleCollab (utf8 "foo") (utf8 "a%%b") = utf8 "a%b/foo_gen.go" := by
      decide
    rw [← h]
    rfl
  · rfl
  · rfl
  · rfl

end Jennies

namespace LocalEnv

open Jennies

/-! ## parsePluginJSONValue -/

/-- C11 (the code at the failing input). `parsePluginJSONValue` returns the
decimal string and a nil error for a value of dynamic type `int`, the string
itself for a `string`, and the error `unknown type` for a type outside its
cases. For a value of dynamic type `int32` or `int64` it does not return: the
assertion `v.(int)` fails and the call panics with
`interface conversion: interface {} is int64, not int` (or `int32`), as on
`int64(5)`, for which the decimal string is `5`. -/
theorem parsePluginJSONValue_panics_on_int32_int64 :
    (∀ (lib : StdLib) (n : Int),
      parsePluginJSONValue lib (.intValue n) = .returned (.ok (Itoa n))) ∧
    (∀ (lib : StdLib) (s : GoString),
      parsePluginJSONValue lib (.stringValue s) = .returned (.ok s)) ∧
    (∀ (lib : StdLib) (typeName : GoString),
      parsePluginJSONValue lib (.otherValue typeName) = .returned (.error ⟨utf8 "unknown type"⟩)) ∧
    (∀ (lib : StdLib) (n : Int),
      parsePluginJSONValue lib (.int32Value n) =
        .panicked (utf8 "interface conversion: interface {} is int32, not int")) ∧
    (∀ (lib : StdLib) (n : Int),
      parsePluginJSONValue lib (.int64Value n) =
        .panicked (utf8 "interface conversion: interface {} is int64, not int")) ∧
    (∀ (lib : StdLib), parsePluginJSONValue lib (.int64Value 5) ≠ .returned (.ok (Itoa 5))) ∧
    Itoa 5 = utf8 "5" ∧ Itoa (-42) = utf8 "-42" := by
  refine ⟨fun lib n => rfl, fun lib s => rfl, fun lib typeName => ?_, fun lib n => ?_,
    fun lib n => ?_, fun lib h => ?_, by decide, by decide⟩
  · have h : utf8 "unknown type" = [117, 110, 107, 110, 111, 119, 110, 32, 116, 121, 112, 101] := by
      decide
    simp [parsePluginJSONValue, Sprintf, h, doPrintf]
  · simp only [parsePluginJSONValue, assertInt, AnyValue.typeString]
    congr 1
  · simp only [parsePluginJSONValue, assertInt, AnyValue.typeString]
    congr 1
  · simp [parsePluginJSONValue, assertInt] at h

end LocalEnv

